import Mathlib

/-!
Verification of the Spectre 3-band spectral envelope follower
(`spectralEnvFollower.cpp`).

The DSP pipeline is embedded shallowly: C `float` arithmetic is modelled
by exact rational arithmetic (`ℚ`), C `int` by `ℤ`/`ℕ`, and the four
transcendental library calls (`cosf`, `sinf`, `sqrtf`, `expf`, `powf`)
are uninterpreted function parameters gathered in the `Flt` record, so
every theorem that does not depend on their values holds for all
interpretations.  Arrays are Lean `Array`s with the C out-of-bounds
behaviour made total via default-returning reads and no-op writes.
-/

set_option maxRecDepth 2048

namespace Spectre

/-- Configuration constant `kFftSize = 512` (fixed 512-point FFT). -/
def kFftSize : ℕ := 512

/-- `kFftRateHz = 60`, the target FFT update rate in Hz. -/
def kFftRateHz : ℚ := 60

/-- `kHannWindowSum = 0.5f * (kFftSize - 1)`, the sum of the Hann window. -/
def kHannWindowSum : ℚ := 1/2 * (512 - 1)

/-- `kHannWindowRmsGain = 0.6117741f`, the RMS gain of the Hann window. -/
def kHannWindowRmsGain : ℚ := 0.6117741

/-- `kFftRmsNormalization = 1 / (kFftSize * kHannWindowRmsGain)`. -/
def kFftRmsNormalization : ℚ := 1 / (512 * kHannWindowRmsGain)

/-- `kPeakNormPositive = 2 / kHannWindowSum` (mirrored interior bins). -/
def kPeakNormPositive : ℚ := 2 / kHannWindowSum

/-- `kPeakNormEdge = 1 / kHannWindowSum` (DC / Nyquist edge bins). -/
def kPeakNormEdge : ℚ := 1 / kHannWindowSum

/-- `kSqrtTwo = 1.41421356f`, the crest-factor correction. -/
def kSqrtTwo : ℚ := 1.41421356

/-- `kReferenceVoltage = 10.0f` (10 V full scale). -/
def kReferenceVoltage : ℚ := 10

/-- `M_PI_F` as used by the source. -/
def piF : ℚ := 3.14159265358979323846

/-- Uninterpreted models of the float math library functions used by the
source (`cosf`, `sinf`, `sqrtf`, `expf`, `powf`). -/
structure Flt where
  cosf : ℚ → ℚ
  sinf : ℚ → ℚ
  sqrtf : ℚ → ℚ
  expf : ℚ → ℚ
  powf : ℚ → ℚ → ℚ

/-- The `Complex` struct of the source (two floats). -/
structure Cx where
  real : ℚ
  imag : ℚ
deriving DecidableEq, Repr

/-- `Complex` zero, i.e. `Complex(0, 0)`. -/
def Cx.zero : Cx := ⟨0, 0⟩

/-- `Complex` one, i.e. `Complex(1, 0)`. -/
def Cx.one : Cx := ⟨1, 0⟩

/-- `Complex::operator+`. -/
def Cx.add (a b : Cx) : Cx := ⟨a.real + b.real, a.imag + b.imag⟩

/-- `Complex::operator-`. -/
def Cx.sub (a b : Cx) : Cx := ⟨a.real - b.real, a.imag - b.imag⟩

/-- `Complex::operator*`. -/
def Cx.mul (a b : Cx) : Cx :=
  ⟨a.real * b.real - a.imag * b.imag, a.real * b.imag + a.imag * b.real⟩

instance : Add Cx := ⟨Cx.add⟩

instance : Sub Cx := ⟨Cx.sub⟩

instance : Mul Cx := ⟨Cx.mul⟩

/-- Total read of a rational array; out of bounds gives `0` (never taken
by the source on the index ranges we prove about). -/
def qget (a : Array ℚ) (i : ℕ) : ℚ := a.getD i 0

/-- Total write into a rational array; out of bounds is a no-op. -/
def qset (a : Array ℚ) (i : ℕ) (v : ℚ) : Array ℚ :=
  if h : i < a.size then a.set ⟨i, h⟩ v else a

/-- Total read of a complex array. -/
def cget (a : Array Cx) (i : ℕ) : Cx := a.getD i Cx.zero

/-- Total write into a complex array. -/
def cset (a : Array Cx) (i : ℕ) (v : Cx) : Array Cx :=
  if h : i < a.size then a.set ⟨i, h⟩ v else a

/-- C `roundf`: round half away from zero. -/
def croundf (q : ℚ) : ℤ := if q < 0 then -⌊-q + 1/2⌋ else ⌊q + 1/2⌋

/-- C `(int)` cast of a float: truncation toward zero. -/
def truncQ (q : ℚ) : ℤ := if q < 0 then -⌊-q⌋ else ⌊q⌋

/-- The sample-rate default of the source:
`(NT_globals.sampleRate > 0) ? sampleRate : 48000.0f`. -/
def effRate (sr : ℚ) : ℚ := if sr > 0 then sr else 48000

/-- The inner `while (j & bit) { j ^= bit; bit >>= 1; } j ^= bit;` of
`bitReverse`, advancing the mirrored counter `j`. -/
def brAdvance (j bit : ℕ) : ℕ :=
  if h : j &&& bit = 0 then j ^^^ bit
  else brAdvance (j ^^^ bit) (bit / 2)
termination_by bit
decreasing_by
  have hb : bit ≠ 0 := by
    intro hz
    exact h (by simp [hz])
  exact Nat.div_lt_self (Nat.pos_of_ne_zero hb) (by norm_num)

/-- The swap `temp = data[i]; data[i] = data[j]; data[j] = temp;`. -/
def swapAt (a : Array Cx) (i j : ℕ) : Array Cx :=
  let ti := cget a i
  let tj := cget a j
  cset (cset a i tj) j ti

/-- `bitReverse`: bit-reversal permutation pass of the source FFT.
The guard mirrors `if (!data || n <= 0 || n > kFftSize) return;`. -/
def bitReverse (a : Array Cx) (n : ℕ) : Array Cx :=
  if n = 0 ∨ n > 512 then a
  else
    ((List.range' 1 (n - 1)).foldl
      (fun (p : Array Cx × ℕ) i =>
        let j := brAdvance p.2 (n / 2)
        if i < j then (swapAt p.1 i j, j) else (p.1, j))
      (a, 0)).1

/-- The stage lengths `len = 2, 4, 8, …` while `len <= n` of `simpleFFT`. -/
def lenList (len n : ℕ) : List ℕ :=
  if len = 0 then []
  else if len ≤ n then len :: lenList (len * 2) n
  else []
termination_by n + 1 - len
decreasing_by
  rename_i h0 _
  omega

/-- The inner `j` loop of one butterfly group of `simpleFFT`:
`u = data[i+j]; v = data[i+j+len/2] * w; data[i+j] = u + v;
data[i+j+len/2] = u - v; w = w * wlen;`. -/
def fftInner (a : Array Cx) (wlen : Cx) (i len : ℕ) : Array Cx :=
  ((List.range (len / 2)).foldl
    (fun (p : Array Cx × Cx) j =>
      let u := cget p.1 (i + j)
      let v := cget p.1 (i + j + len / 2) * p.2
      (cset (cset p.1 (i + j) (u + v)) (i + j + len / 2) (u - v), p.2 * wlen))
    (a, Cx.one)).1

/-- One stage of `simpleFFT` for a given `len`: the rotation factor
`wlen = (cosf angle, sinf angle)` with `angle = -2π/len`, applied over
butterfly groups `i = 0, len, 2·len, …` while `i < n`. -/
def fftStage (F : Flt) (a : Array Cx) (n len : ℕ) : Array Cx :=
  let angle : ℚ := -2 * piF / len
  let wlen : Cx := ⟨F.cosf angle, F.sinf angle⟩
  (List.range ((n + len - 1) / len)).foldl
    (fun d q => fftInner d wlen (q * len) len) a

/-- `simpleFFT`: in-place radix-2 FFT of the source (bit reversal then
the iterative butterfly stages). -/
def simpleFFT (F : Flt) (a : Array Cx) (n : ℕ) : Array Cx :=
  if n = 0 ∨ n > 512 then a
  else (lenList 2 n).foldl (fun d len => fftStage F d n len) (bitReverse a n)

/-- `realFFT`: copy the real samples into the complex buffer (imaginary
parts zero) and run `simpleFFT`. -/
def realFFT (F : Flt) (realInput : Array ℚ) (complexOutput : Array Cx)
    (n : ℕ) : Array Cx :=
  if n = 0 ∨ n > 512 then complexOutput
  else
    let co := (List.range n).foldl
      (fun co i => cset co i ⟨qget realInput i, 0⟩) complexOutput
    simpleFFT F co n

/-- The per-instance state `_SpectralEnvFollower_DTC` of the source. -/
structure St where
  inputBuffer : Array ℚ
  tempBuffer : Array ℚ
  fftOutput : Array Cx
  magnitude : Array ℚ
  env : Array ℚ
  attackCoeff : ℚ
  releaseCoeff : ℚ
  samplesAccumulated : ℤ
  samplesSinceLastFFT : ℤ
  potCentres : Array ℚ
  potCentreBins : Array ℚ
  bandwidthOctaves : ℚ
  yScale : ℚ
  displayInit : Bool
deriving DecidableEq

/-- The state set up by `construct`: all buffers zeroed, default
envelope coefficients `1 - expf(-1/0.6)` and `1 - expf(-1/6)`, default
bandwidth `0.333` octaves, counters zeroed. -/
def constructSt (F : Flt) : St where
  inputBuffer := Array.mkArray 512 0
  tempBuffer := Array.mkArray 512 0
  fftOutput := Array.mkArray 512 Cx.zero
  magnitude := Array.mkArray 256 0
  env := Array.mkArray 3 0
  attackCoeff := 1 - F.expf (-1 / 0.6)
  releaseCoeff := 1 - F.expf (-1 / 6)
  samplesAccumulated := 0
  samplesSinceLastFFT := 0
  potCentres := Array.mkArray 3 0
  potCentreBins := Array.mkArray 3 0
  bandwidthOctaves := 0.333
  yScale := 1
  displayInit := false

/-- `envToVolts`: clamp below at zero and scale to 10 V. -/
def envToVolts (env : ℚ) : ℚ :=
  (if env < 0 then 0 else env) * kReferenceVoltage

/-- The bandwidth of a band in bins:
`bandwidthHz = centreFreq * (powf(2, octaves) - 1)`;
`bandwidthBins = bandwidthHz / binHz`. -/
def bandwidthBins (F : Flt) (binHz centreFreq octaves : ℚ) : ℚ :=
  centreFreq * (F.powf 2 octaves - 1) / binHz

/-- The unclamped lower bin `lo = (int)roundf(centreBin - bandwidthBins/2)`. -/
def rawLo (F : Flt) (binHz centreBin centreFreq octaves : ℚ) : ℤ :=
  croundf (centreBin - bandwidthBins F binHz centreFreq octaves / 2)

/-- The unclamped upper bin `hi = (int)roundf(centreBin + bandwidthBins/2)`. -/
def rawHi (F : Flt) (binHz centreBin centreFreq octaves : ℚ) : ℤ :=
  croundf (centreBin + bandwidthBins F binHz centreFreq octaves / 2)

/-- Bin-range computation of the source band loop:
`bandwidthHz = centreFreq * (powf(2.0f, octaves) - 1.0f)`,
`bandwidthBins = bandwidthHz / binHz`,
`lo = (int)roundf(centreBin - bandwidthBins/2)`,
`hi = (int)roundf(centreBin + bandwidthBins/2)`,
then `if (lo < 0) lo = 0;` and `if (hi >= half) hi = half - 1;`. -/
def bandRange (F : Flt) (binHz centreBin centreFreq octaves : ℚ) : ℤ × ℤ :=
  let bwHz := centreFreq * (F.powf 2 octaves - 1)
  let bwBins := bwHz / binHz
  let lo := croundf (centreBin - bwBins / 2)
  let hi := croundf (centreBin + bwBins / 2)
  (if lo < 0 then 0 else lo, if hi ≥ 256 then 256 - 1 else hi)

/-- Modelled from the spec (amended form of §4.5's bin-range sentence):
`lo` is clamped from below at `0` and `hi` from above at `N/2 - 1`. -/
def specBandRange (F : Flt) (binHz centreBin centreFreq octaves : ℚ) :
    ℤ × ℤ :=
  (max (rawLo F binHz centreBin centreFreq octaves) 0,
   min (rawHi F binHz centreBin centreFreq octaves) 255)

/-- The list of scanned bin indices `k = lo, …, hi` (used when
`hi >= lo`; `lo` is nonnegative after clamping). -/
def binList (lo hi : ℤ) : List ℕ := List.range' lo.toNat (hi + 1 - lo).toNat

/-- One iteration of the band scan loop: track the maximum magnitude
and its bin, and accumulate `mag² · weight` where the weight is 1 for a
DC or Nyquist bin and 2 otherwise. -/
def scanStep (mag : Array ℚ) (acc : ℚ × ℕ × ℚ) (k : ℕ) : ℚ × ℕ × ℚ :=
  (if qget mag k > acc.1 then qget mag k else acc.1,
   if qget mag k > acc.1 then k else acc.2.1,
   acc.2.2 + qget mag k * qget mag k *
     (if k = 0 ∨ k = 256 then (1 : ℚ) else 2))

/-- The full band scan `for (k = lo; k <= hi; ++k)` starting from
`peakMag = 0`, `peakBin = lo`, `powerSum = 0`. -/
def bandScan (mag : Array ℚ) (lo hi : ℤ) : ℚ × ℕ × ℚ :=
  (binList lo hi).foldl (scanStep mag) (0, lo.toNat, 0)

/-- The pre-clamp band energy of the source: 0 for an empty range;
in peak mode `peakMag * peakScale` with the edge normalisation for a
DC/Nyquist peak bin; in RMS mode `sqrtf(powerSum) * kFftRmsNormalization
* kSqrtTwo` guarded by `powerSum > 0`. -/
def bandEnergyRaw (F : Flt) (mag : Array ℚ) (usePeak : Bool)
    (lo hi : ℤ) : ℚ :=
  if hi ≥ lo then
    if usePeak then
      (bandScan mag lo hi).1 *
        (if (bandScan mag lo hi).2.1 = 0 ∨ (bandScan mag lo hi).2.1 = 256
          then kPeakNormEdge else kPeakNormPositive)
    else if (bandScan mag lo hi).2.2 > 0 then
      F.sqrtf (bandScan mag lo hi).2.2 * kFftRmsNormalization * kSqrtTwo
    else 0
  else 0

/-- The clamp `if (env < 0) env = 0; else if (env > 1) env = 1;`. -/
def clamp01 (x : ℚ) : ℚ := if x < 0 then 0 else if x > 1 then 1 else x

/-- Asymmetric smoothing: attack coefficient when the target exceeds the
current envelope, release coefficient otherwise. -/
def envUpdate (attackCoeff releaseCoeff cur target : ℚ) : ℚ :=
  if target > cur then cur + attackCoeff * (target - cur)
  else cur + releaseCoeff * (target - cur)

/-- Modelled from the spec (§4.5 RMS formula, for comparison with the
source): `Σ magnitude(k)² · weight(k)` over the scanned bins. -/
def specPowerSum (mag : Array ℚ) (lo hi : ℤ) : ℚ :=
  ((binList lo hi).map
    (fun k => qget mag k * qget mag k * (if k = 0 ∨ k = 256 then 1 else 2))).sum

/-- The Hann window coefficient
`0.5f * (1.0f - cosf((2.0f * M_PI_F * i) / (kFftSize - 1)))`. -/
def hannWindow (F : Flt) (i : ℕ) : ℚ :=
  1/2 * (1 - F.cosf (2 * piF * i / (512 - 1)))

/-- Stage 1 of the analysis pass: copy the circular buffer linearly
into the temp buffer starting at the current cursor
(`tempBuffer[i] = inputBuffer[(startIdx + i) % kFftSize]`), then apply
the Hann window in place (`tempBuffer[i] *= w`). -/
def passTemp (F : Flt) (s : St) : Array ℚ :=
  (List.range 512).foldl
    (fun t i => qset t i (qget t i * hannWindow F i))
    ((List.range 512).foldl
      (fun t i =>
        qset t i (qget s.inputBuffer ((s.samplesAccumulated.toNat + i) % 512)))
      s.tempBuffer)

/-- Stage 2: `realFFT(d->tempBuffer, d->fftOutput, kFftSize)`. -/
def passFft (F : Flt) (s : St) : Array Cx :=
  realFFT F (passTemp F s) s.fftOutput 512

/-- Stage 3: recompute the half-spectrum magnitudes
`magnitude[k] = sqrtf(re*re + im*im)` for `k < kFftSize/2`. -/
def passMag (F : Flt) (s : St) : Array ℚ :=
  (List.range 256).foldl
    (fun m k =>
      qset m k (F.sqrtf ((cget (passFft F s) k).real *
        (cget (passFft F s) k).real +
        (cget (passFft F s) k).imag * (cget (passFft F s) k).imag)))
    s.magnitude

/-- The clamped energy target of band `b` on an analysis pass: bin
range from the cached centre bin/frequency and shared bandwidth, then
the clamped band energy over the given magnitudes. -/
def bandTarget (F : Flt) (sampleRate : ℚ) (usePeak : Bool) (s : St)
    (mag : Array ℚ) (b : ℕ) : ℚ :=
  clamp01 (bandEnergyRaw F mag usePeak
    (bandRange F (sampleRate / 512) (qget s.potCentreBins b)
      (qget s.potCentres b) s.bandwidthOctaves).1
    (bandRange F (sampleRate / 512) (qget s.potCentreBins b)
      (qget s.potCentres b) s.bandwidthOctaves).2)

/-- The per-band envelope update loop of the analysis pass, acting on a
given magnitude array: smooth each band's clamped energy into `env[b]`
with the attack/release coefficients. -/
def passEnvWith (F : Flt) (sampleRate : ℚ) (usePeak : Bool) (s : St)
    (mag : Array ℚ) : Array ℚ :=
  (List.range 3).foldl
    (fun e b =>
      qset e b (envUpdate s.attackCoeff s.releaseCoeff (qget e b)
        (bandTarget F sampleRate usePeak s mag b)))
    s.env

/-- Stage 4: the envelope loop applied to the freshly computed
magnitudes. -/
def passEnv (F : Flt) (sampleRate : ℚ) (usePeak : Bool) (s : St) :
    Array ℚ :=
  passEnvWith F sampleRate usePeak s (passMag F s)

/-- The analysis pass body of `step` (the branch taken when the FFT
timer fires): window the accumulated samples, run the FFT, recompute
the magnitudes, update the three band envelopes, and reset the FFT
timer to zero. -/
def runAnalysis (F : Flt) (sampleRate : ℚ) (usePeak : Bool) (s : St) : St :=
  { s with tempBuffer := passTemp F s, fftOutput := passFft F s,
           magnitude := passMag F s, env := passEnv F sampleRate usePeak s,
           samplesSinceLastFFT := 0 }

/-- The FFT-rate test of the per-sample loop:
`if (samplesSinceLastFFT >= fftInterval || samplesSinceLastFFT == kFftSize)`
run an analysis pass, else leave the state as is. -/
def stepFire (F : Flt) (fftInterval : ℤ) (sampleRate : ℚ)
    (usePeak : Bool) (s1 : St) : St :=
  if s1.samplesSinceLastFFT ≥ fftInterval ∨ s1.samplesSinceLastFFT = 512 then
    runAnalysis F sampleRate usePeak s1
  else s1

/-- One iteration of the per-sample loop of `step`: store the sample at
the cursor, advance the cursor modulo 512, bump the FFT timer, and fire
the analysis pass when due. -/
def stepSample (F : Flt) (fftInterval : ℤ) (sampleRate : ℚ)
    (usePeak : Bool) (s : St) (x : ℚ) : St :=
  stepFire F fftInterval sampleRate usePeak
    { s with
      inputBuffer := qset s.inputBuffer s.samplesAccumulated.toNat x,
      samplesAccumulated := (s.samplesAccumulated + 1) % 512,
      samplesSinceLastFFT := s.samplesSinceLastFFT + 1 }

/-- The cursor validation at the top of `step`:
`if (idx < 0 || idx >= kFftSize) { idx = 0; d->samplesAccumulated = 0; }`. -/
def entryFix (s : St) : St :=
  if s.samplesAccumulated < 0 ∨ s.samplesAccumulated ≥ 512 then
    { s with samplesAccumulated := 0 }
  else s

/-- The scheduler counter transition extracted from `stepSample`
(increment, then reset to zero exactly when a pass fires). -/
def schedNext (fftInterval c : ℤ) : ℤ :=
  if c + 1 ≥ fftInterval ∨ c + 1 = 512 then 0 else c + 1

/-- The scheduler counter after `k` samples starting from zero. -/
def counterIter (fftInterval : ℤ) : ℕ → ℤ
  | 0 => 0
  | k + 1 => schedNext fftInterval (counterIter fftInterval k)

/-- The analysis core of one `step` call on a block of samples: validate
the cursor, compute `fftInterval = (int)(sampleRate / kFftRateHz)` from
the defaulted sample rate, and run the per-sample loop. -/
def stepBlock (F : Flt) (sr : ℚ) (usePeak : Bool) (s : St)
    (samples : List ℚ) : St :=
  samples.foldl
    (stepSample F (truncQ (effRate sr / kFftRateHz)) (effRate sr) usePeak)
    (entryFix s)

/-- `updates = (ms / 1000.0f) * kFftRateHz` of `parameterChanged`. -/
def timeUpdates (ms : ℚ) : ℚ := ms / 1000 * kFftRateHz

/-- `parameterChanged`: recompute the cached field owned by the changed
parameter (band centres 7–9, bandwidth 10, attack 11, release 12). -/
def parameterChanged (F : Flt) (sr : ℚ) (v : ℕ → ℤ) (paramIndex : ℕ)
    (s : St) : St :=
  let binHz := effRate sr / 512
  if paramIndex = 7 then
    { s with potCentres := qset s.potCentres 0 ((v 7 : ℚ)),
             potCentreBins := qset s.potCentreBins 0 ((v 7 : ℚ) / binHz) }
  else if paramIndex = 8 then
    { s with potCentres := qset s.potCentres 1 ((v 8 : ℚ)),
             potCentreBins := qset s.potCentreBins 1 ((v 8 : ℚ) / binHz) }
  else if paramIndex = 9 then
    { s with potCentres := qset s.potCentres 2 ((v 9 : ℚ)),
             potCentreBins := qset s.potCentreBins 2 ((v 9 : ℚ) / binHz) }
  else if paramIndex = 10 then
    { s with bandwidthOctaves := (v 10 : ℚ) / 100 }
  else if paramIndex = 11 then
    { s with attackCoeff := 1 - F.expf (-1 / timeUpdates (v 11 : ℚ)) }
  else if paramIndex = 12 then
    { s with releaseCoeff := 1 - F.expf (-1 / timeUpdates (v 12 : ℚ)) }
  else s

/-! ### Basic array lemmas -/

theorem qset_size (a : Array ℚ) (i : ℕ) (v : ℚ) :
    (qset a i v).size = a.size := by
  unfold qset
  split
  · exact Array.size_set a _ v
  · rfl

theorem qget_qset (a : Array ℚ) (i j : ℕ) (v : ℚ) :
    qget (qset a i v) j = if i = j ∧ i < a.size then v else qget a j := by
  unfold qget qset
  split
  · rename_i hi
    by_cases hj : j < a.size
    · rw [Array.getD, dif_pos (by simpa [Array.size_set] using hj)]
      by_cases hij : i = j
      · subst hij
        simp [hi, Array.getD, hj]
      · simp only [Array.get_eq_getElem]
        rw [Array.getElem_set_ne a ⟨i, hi⟩ v (by simpa using hj)
          (by simpa using hij)]
        simp [hij, Array.getD, hj]
    · rw [Array.getD, dif_neg (by simpa [Array.size_set] using hj)]
      have hij : ¬(i = j ∧ i < a.size) := by
        rintro ⟨rfl, hlt⟩
        exact hj hlt
      simp [hij, Array.getD, hj]
  · rename_i hi
    have hij : ¬(i = j ∧ i < a.size) := by
      rintro ⟨rfl, hlt⟩
      exact hi hlt
    simp [hij]

theorem qget_mkArray (n : ℕ) (j : ℕ) : qget (Array.mkArray n 0) j = 0 := by
  unfold qget
  by_cases hj : j < n
  · rw [Array.getD, dif_pos (by simpa using hj)]
    simp
  · rw [Array.getD, dif_neg (by simpa using hj)]

theorem cset_size (a : Array Cx) (i : ℕ) (v : Cx) :
    (cset a i v).size = a.size := by
  unfold cset
  split
  · exact Array.size_set a _ v
  · rfl

theorem cget_cset (a : Array Cx) (i j : ℕ) (v : Cx) :
    cget (cset a i v) j = if i = j ∧ i < a.size then v else cget a j := by
  unfold cget cset
  split
  · rename_i hi
    by_cases hj : j < a.size
    · rw [Array.getD, dif_pos (by simpa [Array.size_set] using hj)]
      by_cases hij : i = j
      · subst hij
        simp [hi, Array.getD, hj]
      · simp only [Array.get_eq_getElem]
        rw [Array.getElem_set_ne a ⟨i, hi⟩ v (by simpa using hj)
          (by simpa using hij)]
        simp [hij, Array.getD, hj]
    · rw [Array.getD, dif_neg (by simpa [Array.size_set] using hj)]
      have hij : ¬(i = j ∧ i < a.size) := by
        rintro ⟨rfl, hlt⟩
        exact hj hlt
      simp [hij, Array.getD, hj]
  · rename_i hi
    have hij : ¬(i = j ∧ i < a.size) := by
      rintro ⟨rfl, hlt⟩
      exact hi hlt
    simp [hij]

/-! ### Projection lemmas for the analysis pass and the per-sample step -/

theorem runAnalysis_counter (F : Flt) (sampleRate : ℚ) (usePeak : Bool)
    (s : St) :
    (runAnalysis F sampleRate usePeak s).samplesSinceLastFFT = 0 := by
  cases s
  simp only [runAnalysis]

theorem runAnalysis_cursor (F : Flt) (sampleRate : ℚ) (usePeak : Bool)
    (s : St) :
    (runAnalysis F sampleRate usePeak s).samplesAccumulated =
      s.samplesAccumulated := by
  cases s
  simp only [runAnalysis]

theorem runAnalysis_inputBuffer (F : Flt) (sampleRate : ℚ) (usePeak : Bool)
    (s : St) :
    (runAnalysis F sampleRate usePeak s).inputBuffer = s.inputBuffer := by
  cases s
  simp only [runAnalysis]

theorem runAnalysis_attack (F : Flt) (sampleRate : ℚ) (usePeak : Bool)
    (s : St) :
    (runAnalysis F sampleRate usePeak s).attackCoeff = s.attackCoeff := by
  cases s
  simp only [runAnalysis]

theorem runAnalysis_release (F : Flt) (sampleRate : ℚ) (usePeak : Bool)
    (s : St) :
    (runAnalysis F sampleRate usePeak s).releaseCoeff = s.releaseCoeff := by
  cases s
  simp only [runAnalysis]

theorem stepFire_counter (F : Flt) (I : ℤ) (sr : ℚ) (pk : Bool) (t : St) :
    (stepFire F I sr pk t).samplesSinceLastFFT =
      if t.samplesSinceLastFFT ≥ I ∨ t.samplesSinceLastFFT = 512 then 0
      else t.samplesSinceLastFFT := by
  unfold stepFire
  split
  · rw [runAnalysis_counter]
  · rfl

theorem stepFire_cursor (F : Flt) (I : ℤ) (sr : ℚ) (pk : Bool) (t : St) :
    (stepFire F I sr pk t).samplesAccumulated = t.samplesAccumulated := by
  unfold stepFire
  split
  · exact runAnalysis_cursor F sr pk _
  · rfl

theorem stepFire_attack (F : Flt) (I : ℤ) (sr : ℚ) (pk : Bool) (t : St) :
    (stepFire F I sr pk t).attackCoeff = t.attackCoeff := by
  unfold stepFire
  split
  · exact runAnalysis_attack F sr pk _
  · rfl

theorem stepFire_release (F : Flt) (I : ℤ) (sr : ℚ) (pk : Bool) (t : St) :
    (stepFire F I sr pk t).releaseCoeff = t.releaseCoeff := by
  unfold stepFire
  split
  · exact runAnalysis_release F sr pk _
  · rfl

theorem stepSample_counter (F : Flt) (I : ℤ) (sr : ℚ) (pk : Bool)
    (s : St) (x : ℚ) :
    (stepSample F I sr pk s x).samplesSinceLastFFT =
      schedNext I s.samplesSinceLastFFT := by
  unfold stepSample schedNext
  rw [stepFire_counter]

theorem stepSample_cursor (F : Flt) (I : ℤ) (sr : ℚ) (pk : Bool)
    (s : St) (x : ℚ) :
    (stepSample F I sr pk s x).samplesAccumulated =
      (s.samplesAccumulated + 1) % 512 := by
  unfold stepSample
  rw [stepFire_cursor]

theorem stepSample_cursor_range (F : Flt) (I : ℤ) (sr : ℚ) (pk : Bool)
    (s : St) (x : ℚ) :
    0 ≤ (stepSample F I sr pk s x).samplesAccumulated ∧
      (stepSample F I sr pk s x).samplesAccumulated < 512 := by
  rw [stepSample_cursor]
  exact ⟨Int.emod_nonneg _ (by norm_num), Int.emod_lt_of_pos _ (by norm_num)⟩

theorem entryFix_cursor_range (s : St) :
    0 ≤ (entryFix s).samplesAccumulated ∧
      (entryFix s).samplesAccumulated < 512 := by
  unfold entryFix
  split
  · exact ⟨le_refl 0, by norm_num⟩
  · rename_i h
    push_neg at h
    exact ⟨h.1, h.2⟩

theorem entryFix_of_range (s : St) (h0 : 0 ≤ s.samplesAccumulated)
    (h1 : s.samplesAccumulated < 512) : entryFix s = s := by
  unfold entryFix
  rw [if_neg]
  push_neg
  exact ⟨h0, h1⟩

/-! ### Scheduler analysis -/

theorem entryFix_counter (s : St) :
    (entryFix s).samplesSinceLastFFT = s.samplesSinceLastFFT := by
  unfold entryFix
  split <;> rfl

/-- A concrete interpretation of the float library with every function
constantly zero, used to instantiate universally quantified theorems. -/
def F0 : Flt :=
  ⟨fun _ => 0, fun _ => 0, fun _ => 0, fun _ => 0, fun _ _ => 0⟩

theorem counterIter_mod (k : ℕ) :
    counterIter 800 k = ((k % 512 : ℕ) : ℤ) := by
  induction k with
  | zero => simp [counterIter]
  | succ k ih =>
    have hk : k % 512 < 512 := Nat.mod_lt _ (by norm_num)
    rw [show counterIter 800 (k + 1) = schedNext 800 (counterIter 800 k) from
      rfl, ih]
    unfold schedNext
    split
    · rename_i h
      omega
    · rename_i h
      push_neg at h
      omega

theorem schedNext_800_fire (k : ℕ) :
    schedNext 800 (counterIter 800 k) = 0 ↔ (k + 1) % 512 = 0 := by
  rw [counterIter_mod]
  have hk : k % 512 < 512 := Nat.mod_lt _ (by norm_num)
  unfold schedNext
  constructor
  · intro h
    by_contra hne
    rw [if_neg] at h
    · omega
    · push_neg
      omega
  · intro h
    rw [if_pos]
    omega

/-- Claim C1 (code bug at the default sample rate): with the defaulted
sample rate 48000 the configured interval is `(int)(48000/60) = 800`,
the counter transition of `stepSample` is `schedNext 800`, and — because
the counter is reset to zero after every pass and `512 < 800` — the
`samplesSinceLastFFT == kFftSize` branch fires a pass at every multiple
of 512 samples, giving `48000 / 512` passes (between 93 and 94) in the
first second instead of the claimed `60 ± 1`. -/
theorem c1_scheduler_rate_bug :
    truncQ (effRate 48000 / kFftRateHz) = 800 ∧
    (∀ (F : Flt) (pk : Bool) (s : St) (x : ℚ),
      (stepSample F 800 48000 pk s x).samplesSinceLastFFT =
        schedNext 800 s.samplesSinceLastFFT) ∧
    (∀ k : ℕ, counterIter 800 k = ((k % 512 : ℕ) : ℤ)) ∧
    (∀ k : ℕ, schedNext 800 (counterIter 800 k) = 0 ↔ (k + 1) % 512 = 0) ∧
    512 * 93 ≤ 48000 ∧ 48000 < 512 * 94 ∧ ¬(59 ≤ 93 ∧ (93 : ℕ) ≤ 61) := by
  refine ⟨?_, ?_, counterIter_mod, schedNext_800_fire, by norm_num, by
    norm_num, by norm_num⟩
  · rw [show effRate 48000 = 48000 from by norm_num [effRate]]
    rw [show (48000 : ℚ) / kFftRateHz = 800 from by norm_num [kFftRateHz]]
    norm_num [truncQ]
  · intro F pk s x
    exact stepSample_counter F 800 48000 pk s x

/-- Claim C6 counterexample: with sample rate 59 the configured interval
is `(int)(59/60) = 0 ≤ 0`, and the very first input sample already fires
an analysis pass (the counter is back at 0 after one sample), so passes
are spaced one sample apart — not every `N = 512` samples as claimed. -/
theorem c6_counterexample :
    truncQ (effRate 59 / kFftRateHz) = 0 ∧
    (stepBlock F0 59 false (constructSt F0) [0]).samplesSinceLastFFT = 0 ∧
    (1 : ℤ) ≠ 512 := by
  have hI : truncQ (effRate 59 / kFftRateHz) = 0 := by
    rw [show effRate 59 = 59 from by norm_num [effRate]]
    unfold truncQ kFftRateHz
    rw [if_neg (by norm_num)]
    rw [show ((59 : ℚ) / 60) = 59/60 from rfl]
    norm_num [Int.floor_eq_zero_iff]
  refine ⟨hI, ?_, by norm_num⟩
  unfold stepBlock
  rw [List.foldl_cons, List.foldl_nil, stepSample_counter, hI]
  rw [entryFix_counter]
  rw [show (constructSt F0).samplesSinceLastFFT = 0 from rfl]
  unfold schedNext
  rw [if_pos (Or.inl (by norm_num))]

/-- Claim C6 (amended): whenever the configured analysis interval
`(int)(sampleRate / kFftRateHz)` is ≤ 0, every processed sample fires an
analysis pass (the counter is 0 after every sample), i.e. the scheduler
never stalls but fires with spacing 1, not the claimed spacing `N`. -/
theorem c6_interval_nonpositive_fires_every_sample (F : Flt) (sr : ℚ)
    (pk : Bool) (s : St) (x : ℚ)
    (hI : truncQ (effRate sr / kFftRateHz) ≤ 0)
    (hc : 0 ≤ s.samplesSinceLastFFT) :
    (stepBlock F sr pk s [x]).samplesSinceLastFFT = 0 := by
  unfold stepBlock
  rw [List.foldl_cons, List.foldl_nil, stepSample_counter, entryFix_counter]
  unfold schedNext
  rw [if_pos (Or.inl (by omega))]

theorem c6_witness :
    truncQ (effRate 59 / kFftRateHz) ≤ 0 ∧
    0 ≤ (constructSt F0).samplesSinceLastFFT ∧
    (stepBlock F0 59 false (constructSt F0) [(3 : ℚ)]).samplesSinceLastFFT
      = 0 := by
  have hI : truncQ (effRate 59 / kFftRateHz) ≤ 0 := by
    rw [show effRate 59 = 59 from by norm_num [effRate]]
    unfold truncQ kFftRateHz
    rw [if_neg (by norm_num)]
    norm_num [Int.floor_eq_zero_iff]
  have hc : (0 : ℤ) ≤ (constructSt F0).samplesSinceLastFFT := le_of_eq rfl
  exact ⟨hI, hc,
    c6_interval_nonpositive_fires_every_sample F0 59 false (constructSt F0)
      3 hI hc⟩

/-! ### Determinism across buffer boundaries -/

theorem entryFix_idem (s : St) : entryFix (entryFix s) = entryFix s :=
  entryFix_of_range _ (entryFix_cursor_range s).1 (entryFix_cursor_range s).2

theorem foldl_stepSample_cursor_range (F : Flt) (I : ℤ) (sr : ℚ)
    (pk : Bool) (xs : List ℚ) (s : St) (h0 : 0 ≤ s.samplesAccumulated)
    (h1 : s.samplesAccumulated < 512) :
    0 ≤ (xs.foldl (stepSample F I sr pk) s).samplesAccumulated ∧
      (xs.foldl (stepSample F I sr pk) s).samplesAccumulated < 512 := by
  induction xs generalizing s with
  | nil => exact ⟨h0, h1⟩
  | cons x xs ih =>
    rw [List.foldl_cons]
    exact ih _ (stepSample_cursor_range F I sr pk s x).1
      (stepSample_cursor_range F I sr pk s x).2

theorem stepBlock_entryFix (F : Flt) (sr : ℚ) (pk : Bool) (s : St)
    (b : List ℚ) : stepBlock F sr pk (entryFix s) b = stepBlock F sr pk s b := by
  unfold stepBlock
  rw [entryFix_idem]

theorem foldl_stepBlock_join (F : Flt) (sr : ℚ) (pk : Bool)
    (bs : List (List ℚ)) (s : St) (h0 : 0 ≤ s.samplesAccumulated)
    (h1 : s.samplesAccumulated < 512) :
    List.foldl (stepBlock F sr pk) s bs =
      bs.flatten.foldl
        (stepSample F (truncQ (effRate sr / kFftRateHz)) (effRate sr) pk)
        s := by
  induction bs generalizing s with
  | nil => rfl
  | cons b bs ih =>
    rw [List.foldl_cons, List.flatten_cons, List.foldl_append]
    have hb : stepBlock F sr pk s b =
        b.foldl (stepSample F (truncQ (effRate sr / kFftRateHz))
          (effRate sr) pk) s := by
      unfold stepBlock
      rw [entryFix_of_range s h0 h1]
    rw [hb]
    exact ih _ (foldl_stepSample_cursor_range F _ _ pk b s h0 h1).1
      (foldl_stepSample_cursor_range F _ _ pk b s h0 h1).2

theorem join_ne_nil_of_blocks {bs : List (List ℚ)} (hne : bs ≠ [])
    (hb : ∀ b ∈ bs, b ≠ []) : bs.flatten ≠ [] := by
  cases bs with
  | nil => exact absurd rfl hne
  | cons b bs =>
    rw [List.flatten_cons]
    intro hj
    rcases List.append_eq_nil.mp hj with ⟨hb1, _⟩
    exact hb b (List.mem_cons_self b bs) hb1

/-- Claim C9: the pipeline is deterministic across buffer boundaries.
Any two partitions of the same sample sequence into successive `step`
blocks (each block nonempty with a frame count that is a multiple of 4)
leave the entire analysis state — circular buffer, cursor, FFT counter,
spectrum, and envelopes — identical, because the per-sample loop is a
fold over the samples and the entry cursor fix is idempotent. -/
theorem c9_partition_determinism (F : Flt) (sr : ℚ) (pk : Bool) (s : St)
    (bs1 bs2 : List (List ℚ)) (hjoin : bs1.flatten = bs2.flatten)
    (h1 : ∀ b ∈ bs1, b ≠ [] ∧ b.length % 4 = 0)
    (h2 : ∀ b ∈ bs2, b ≠ [] ∧ b.length % 4 = 0) :
    List.foldl (stepBlock F sr pk) s bs1 =
      List.foldl (stepBlock F sr pk) s bs2 := by
  by_cases hn1 : bs1 = []
  · by_cases hn2 : bs2 = []
    · rw [hn1, hn2]
    · exfalso
      apply join_ne_nil_of_blocks hn2 (fun b hb => (h2 b hb).1)
      rw [← hjoin, hn1]
      rfl
  · by_cases hn2 : bs2 = []
    · exfalso
      apply join_ne_nil_of_blocks hn1 (fun b hb => (h1 b hb).1)
      rw [hjoin, hn2]
      rfl
    · have key : ∀ bs : List (List ℚ), bs ≠ [] →
          List.foldl (stepBlock F sr pk) s bs =
            bs.flatten.foldl
              (stepSample F (truncQ (effRate sr / kFftRateHz))
                (effRate sr) pk) (entryFix s) := by
        intro bs hbs
        cases bs with
        | nil => exact absurd rfl hbs
        | cons b r =>
          rw [show List.foldl (stepBlock F sr pk) s (b :: r) =
            List.foldl (stepBlock F sr pk) (entryFix s) (b :: r) from by
              rw [List.foldl_cons, List.foldl_cons, stepBlock_entryFix]]
          exact foldl_stepBlock_join F sr pk (b :: r) (entryFix s)
            (entryFix_cursor_range s).1 (entryFix_cursor_range s).2
      rw [key bs1 hn1, key bs2 hn2, hjoin]

theorem c9_witness :
    ([[0, 0, 0, 0], [1, 1, 1, 1]] : List (List ℚ)).flatten =
      ([[0, 0, 0, 0, 1, 1, 1, 1]] : List (List ℚ)).flatten ∧
    (∀ b ∈ ([[0, 0, 0, 0], [1, 1, 1, 1]] : List (List ℚ)),
      b ≠ [] ∧ b.length % 4 = 0) ∧
    (∀ b ∈ ([[0, 0, 0, 0, 1, 1, 1, 1]] : List (List ℚ)),
      b ≠ [] ∧ b.length % 4 = 0) ∧
    List.foldl (stepBlock F0 48000 false) (constructSt F0)
        [[0, 0, 0, 0], [1, 1, 1, 1]] =
      List.foldl (stepBlock F0 48000 false) (constructSt F0)
        [[0, 0, 0, 0, 1, 1, 1, 1]] := by
  refine ⟨by decide, by decide, by decide, ?_⟩
  exact c9_partition_determinism F0 48000 false (constructSt F0) _ _
    (by decide) (by decide) (by decide)

/-! ### Band extraction: bin ranges, scans, energies -/

theorem mem_binList {lo hi : ℤ} {k : ℕ} (hlo : 0 ≤ lo) :
    k ∈ binList lo hi ↔ lo ≤ (k : ℤ) ∧ (k : ℤ) ≤ hi := by
  unfold binList
  rw [List.mem_range'_1]
  omega

theorem bandRange_eq_spec (F : Flt) (binHz cb cf oct : ℚ) :
    bandRange F binHz cb cf oct = specBandRange F binHz cb cf oct := by
  simp only [bandRange, specBandRange, rawLo, rawHi, bandwidthBins,
    Prod.mk.injEq]
  constructor
  · split
    · rename_i h
      exact (max_eq_right (le_of_lt h)).symm
    · rename_i h
      exact (max_eq_left (not_lt.mp h)).symm
  · split
    · rename_i h
      exact (min_eq_right (by omega)).symm
    · rename_i h
      exact (min_eq_left (by omega)).symm

theorem bandRange_lo_nonneg (F : Flt) (binHz cb cf oct : ℚ) :
    0 ≤ (bandRange F binHz cb cf oct).1 := by
  rw [bandRange_eq_spec]
  exact le_max_right _ _

theorem bandRange_hi_le (F : Flt) (binHz cb cf oct : ℚ) :
    (bandRange F binHz cb cf oct).2 ≤ 255 := by
  rw [bandRange_eq_spec]
  exact min_le_right _ _

theorem bandScan_foldl (mag : Array ℚ) (l : List ℕ) (acc : ℚ × ℕ × ℚ) :
    acc.1 ≤ (l.foldl (scanStep mag) acc).1 ∧
    (∀ k ∈ l, qget mag k ≤ (l.foldl (scanStep mag) acc).1) ∧
    ((l.foldl (scanStep mag) acc).1 = acc.1 ∧
        (l.foldl (scanStep mag) acc).2.1 = acc.2.1 ∨
      ∃ k ∈ l, (l.foldl (scanStep mag) acc).2.1 = k ∧
        (l.foldl (scanStep mag) acc).1 = qget mag k) ∧
    (l.foldl (scanStep mag) acc).2.2 =
      acc.2.2 + (l.map (fun k => qget mag k * qget mag k *
        (if k = 0 ∨ k = 256 then (1 : ℚ) else 2))).sum := by
  induction l generalizing acc with
  | nil =>
    refine ⟨le_refl _, by simp, Or.inl ⟨rfl, rfl⟩, by simp⟩
  | cons k l ih =>
    rw [List.foldl_cons]
    obtain ⟨ih1, ih2, ih3, ih4⟩ := ih (scanStep mag acc k)
    have hstep1 : acc.1 ≤ (scanStep mag acc k).1 := by
      unfold scanStep
      dsimp only
      split
      · rename_i h
        exact le_of_lt h
      · exact le_refl _
    have hk1 : qget mag k ≤ (scanStep mag acc k).1 := by
      unfold scanStep
      dsimp only
      split
      · exact le_refl _
      · rename_i h
        exact not_lt.mp h
    refine ⟨le_trans hstep1 ih1, ?_, ?_, ?_⟩
    · intro k' hk'
      rcases List.mem_cons.mp hk' with rfl | hmem
      · exact le_trans hk1 ih1
      · exact ih2 k' hmem
    · rcases ih3 with ⟨he1, he2⟩ | ⟨k', hk', hb, hv⟩
      · by_cases hgt : qget mag k > acc.1
        · refine Or.inr ⟨k, List.mem_cons_self k l, ?_, ?_⟩
          · rw [he2]
            unfold scanStep
            dsimp only
            rw [if_pos hgt]
          · rw [he1]
            unfold scanStep
            dsimp only
            rw [if_pos hgt]
        · refine Or.inl ⟨?_, ?_⟩
          · rw [he1]
            unfold scanStep
            dsimp only
            rw [if_neg hgt]
          · rw [he2]
            unfold scanStep
            dsimp only
            rw [if_neg hgt]
      · exact Or.inr ⟨k', List.mem_cons_of_mem k hk', hb, hv⟩
    · rw [ih4]
      unfold scanStep
      dsimp only
      rw [List.map_cons, List.sum_cons]
      ring

theorem bandScan_peak_le (mag : Array ℚ) (lo hi : ℤ) :
    ∀ k ∈ binList lo hi, qget mag k ≤ (bandScan mag lo hi).1 :=
  (bandScan_foldl mag (binList lo hi) (0, lo.toNat, 0)).2.1

theorem bandScan_powerSum (mag : Array ℚ) (lo hi : ℤ) :
    (bandScan mag lo hi).2.2 = specPowerSum mag lo hi := by
  have h := (bandScan_foldl mag (binList lo hi) (0, lo.toNat, 0)).2.2.2
  unfold bandScan specPowerSum
  rw [h]
  ring

theorem bandScan_peakBin_cases (mag : Array ℚ) (lo hi : ℤ) :
    (bandScan mag lo hi).2.1 = lo.toNat ∨
      (bandScan mag lo hi).2.1 ∈ binList lo hi := by
  rcases (bandScan_foldl mag (binList lo hi) (0, lo.toNat, 0)).2.2.1 with
    ⟨_, h⟩ | ⟨k, hk, hb, _⟩
  · exact Or.inl h
  · unfold bandScan
    rw [hb]
    exact Or.inr hk

/-- A concrete interpretation whose `powf` is constantly 1 (so that a
band has zero bandwidth), used to exercise the clamping code. -/
def F1 : Flt :=
  ⟨fun _ => 0, fun _ => 0, fun _ => 0, fun _ => 0, fun _ _ => 1⟩

theorem clamp01_mem (x : ℚ) : 0 ≤ clamp01 x ∧ clamp01 x ≤ 1 := by
  unfold clamp01
  split_ifs <;> constructor <;> linarith

/-- Claim C3 counterexample: with zero bandwidth, a centre bin of 300
(reachable for instance at low sample rates) gives `lo = round(300) =
300`, which the code leaves at 300 — it is NOT clamped into
`[0, N/2 - 1] = [0, 255]` as the claim states; only the lower bound of
`lo` and the upper bound of `hi` are clamped. -/
theorem c3_counterexample :
    (bandRange F1 1 300 100 1).1 = 300 ∧
      ¬((bandRange F1 1 300 100 1).1 ≤ 256 - 1) := by
  have h : (bandRange F1 1 300 100 1).1 = 300 := by
    simp only [bandRange, F1, croundf]
    norm_num
  exact ⟨h, by rw [h]; norm_num⟩

/-- Claim C3 (amended): the bin range is computed as `bandwidthHz =
centreFreq * (2^octaves - 1)`, `bandwidthBins = bandwidthHz / binHz`,
`lo = round(centreBin - bandwidthBins/2)`, `hi = round(centreBin +
bandwidthBins/2)`, with `lo` clamped from below to `0` and `hi` clamped
from above to `N/2 - 1` (there is no upper clamp on `lo` and no lower
clamp on `hi`). -/
theorem c3_bin_range_amended (F : Flt) (binHz centreBin centreFreq
    octaves : ℚ) :
    bandRange F binHz centreBin centreFreq octaves =
      specBandRange F binHz centreBin centreFreq octaves :=
  bandRange_eq_spec F binHz centreBin centreFreq octaves

/-- Claim C2: on a non-empty clamped bin range with nonnegative
magnitudes, peak-mode energy is the maximum magnitude over the range
times `1/windowSum` for a DC/Nyquist-edge peak bin and `2/windowSum`
otherwise; RMS-mode energy is `sqrt(Σ mag²·weight) * (1/(N *
windowRmsGain)) * √2` with weight 1 on DC/Nyquist bins and 2 on
interior bins. -/
theorem c2_band_energy (F : Flt) (mag : Array ℚ) (lo hi : ℤ)
    (hlo : 0 ≤ lo) (hle : lo ≤ hi)
    (hm : ∀ k ∈ binList lo hi, 0 ≤ qget mag k) :
    (∀ k ∈ binList lo hi, qget mag k ≤ (bandScan mag lo hi).1) ∧
    (∃ k ∈ binList lo hi, qget mag k = (bandScan mag lo hi).1) ∧
    bandEnergyRaw F mag true lo hi =
      (bandScan mag lo hi).1 *
        (if (bandScan mag lo hi).2.1 = 0 ∨ (bandScan mag lo hi).2.1 = 256
          then 1 / kHannWindowSum else 2 / kHannWindowSum) ∧
    (bandScan mag lo hi).2.2 = specPowerSum mag lo hi ∧
    (0 < (bandScan mag lo hi).2.2 →
      bandEnergyRaw F mag false lo hi =
        F.sqrtf (specPowerSum mag lo hi) *
          (1 / (512 * kHannWindowRmsGain)) * kSqrtTwo) := by
  have hmemlo : lo.toNat ∈ binList lo hi := by
    rw [mem_binList hlo]
    omega
  refine ⟨bandScan_peak_le mag lo hi, ?_, ?_, bandScan_powerSum mag lo hi, ?_⟩
  · rcases (bandScan_foldl mag (binList lo hi) (0, lo.toNat, 0)).2.2.1 with
      ⟨h1, _⟩ | ⟨k, hk, _, hv⟩
    · refine ⟨lo.toNat, hmemlo, ?_⟩
      have hle0 : qget mag lo.toNat ≤ (bandScan mag lo hi).1 :=
        bandScan_peak_le mag lo hi _ hmemlo
      have hz : (bandScan mag lo hi).1 = 0 := h1
      rw [hz]
      exact le_antisymm (by rw [← hz]; exact hle0) (hm _ hmemlo)
    · exact ⟨k, hk, hv.symm⟩
  · unfold bandEnergyRaw
    rw [if_pos hle]
    simp only [if_true]
    unfold kPeakNormEdge kPeakNormPositive
    rfl
  · intro hpow
    unfold bandEnergyRaw
    rw [if_pos hle]
    simp only [Bool.false_eq_true, if_false]
    rw [if_pos hpow, bandScan_powerSum mag lo hi]
    unfold kFftRmsNormalization
    rfl

theorem c2_witness :
    (0 : ℤ) ≤ 0 ∧ (0 : ℤ) ≤ 1 ∧
    (∀ k ∈ binList 0 1, 0 ≤ qget #[(2 : ℚ), 1] k) ∧
    (∃ k ∈ binList 0 1, qget #[(2 : ℚ), 1] k =
      (bandScan #[(2 : ℚ), 1] 0 1).1) ∧
    bandEnergyRaw F0 #[(2 : ℚ), 1] true 0 1 =
      (bandScan #[(2 : ℚ), 1] 0 1).1 *
        (if (bandScan #[(2 : ℚ), 1] 0 1).2.1 = 0 ∨
            (bandScan #[(2 : ℚ), 1] 0 1).2.1 = 256
          then 1 / kHannWindowSum else 2 / kHannWindowSum) := by
  have h := c2_band_energy F0 #[(2 : ℚ), 1] 0 1 (by norm_num) (by norm_num)
    (by decide)
  exact ⟨by norm_num, by norm_num, by decide, h.2.1, h.2.2.1⟩

/-- Claim C5: an empty bin range yields energy exactly 0; a zero peak
(peak mode) or nonpositive power sum (RMS mode) yields energy exactly 0;
and the clamped energy handed to the envelope follower always lies in
`[0, 1]` (in particular it is never negative; `ℚ` has no NaN and the
rational model propagates none). -/
theorem c5_degenerate_safety (F : Flt) (mag : Array ℚ) (usePeak : Bool)
    (lo hi : ℤ) :
    (hi < lo → bandEnergyRaw F mag usePeak lo hi = 0) ∧
    ((bandScan mag lo hi).1 = 0 → bandEnergyRaw F mag true lo hi = 0) ∧
    ((bandScan mag lo hi).2.2 ≤ 0 → bandEnergyRaw F mag false lo hi = 0) ∧
    0 ≤ clamp01 (bandEnergyRaw F mag usePeak lo hi) ∧
    clamp01 (bandEnergyRaw F mag usePeak lo hi) ≤ 1 := by
  refine ⟨?_, ?_, ?_, (clamp01_mem _).1, (clamp01_mem _).2⟩
  · intro h
    unfold bandEnergyRaw
    rw [if_neg (not_le.mpr h)]
  · intro hz
    unfold bandEnergyRaw
    by_cases hrange : lo ≤ hi
    · rw [if_pos hrange]
      simp only [if_true]
      rw [hz, zero_mul]
    · rw [if_neg hrange]
  · intro hp
    unfold bandEnergyRaw
    by_cases hrange : lo ≤ hi
    · rw [if_pos hrange]
      simp only [Bool.false_eq_true, if_false]
      rw [if_neg (not_lt.mpr hp)]
    · rw [if_neg hrange]

theorem c5_witness :
    bandEnergyRaw F0 #[(1 : ℚ)] true 1 0 = 0 ∧
    0 ≤ clamp01 (bandEnergyRaw F0 #[(1 : ℚ)] true 1 0) ∧
    clamp01 (bandEnergyRaw F0 #[(1 : ℚ)] true 1 0) ≤ 1 :=
  ⟨(c5_degenerate_safety F0 #[(1 : ℚ)] true 1 0).1 (by norm_num),
   (c5_degenerate_safety F0 #[(1 : ℚ)] true 1 0).2.2.2.1,
   (c5_degenerate_safety F0 #[(1 : ℚ)] true 1 0).2.2.2.2⟩

/-- Claim C10: after clamping, the scanned bin range satisfies
`0 ≤ lo` and `hi ≤ N/2 - 1`, every scanned index is below `N/2 = 256`
(so all half-spectrum accesses are in bounds), the tracked peak bin is
below 256, and hence both Nyquist branches — the weight-1 case `k ==
N/2` of the power sum and the Nyquist edge case of the peak
normalisation — are unreachable. -/
theorem c10_scan_in_bounds (F : Flt) (mag : Array ℚ)
    (binHz centreBin centreFreq octaves : ℚ) (lo hi : ℤ)
    (hr : bandRange F binHz centreBin centreFreq octaves = (lo, hi)) :
    0 ≤ lo ∧ hi ≤ 256 - 1 ∧
    (∀ k ∈ binList lo hi, k < 256) ∧
    (lo ≤ hi → (bandScan mag lo hi).2.1 < 256 ∧
      (bandScan mag lo hi).2.1 ≠ 256) ∧
    (∀ k ∈ binList lo hi,
      (if k = 0 ∨ k = 256 then (1 : ℚ) else 2) = if k = 0 then 1 else 2) ∧
    (lo ≤ hi →
      (if (bandScan mag lo hi).2.1 = 0 ∨ (bandScan mag lo hi).2.1 = 256
        then kPeakNormEdge else kPeakNormPositive) =
      if (bandScan mag lo hi).2.1 = 0 then kPeakNormEdge
        else kPeakNormPositive) := by
  have hlo : 0 ≤ lo := by
    have h := bandRange_lo_nonneg F binHz centreBin centreFreq octaves
    rw [hr] at h
    exact h
  have hhi : hi ≤ 255 := by
    have h := bandRange_hi_le F binHz centreBin centreFreq octaves
    rw [hr] at h
    exact h
  have hmem : ∀ k ∈ binList lo hi, k < 256 := by
    intro k hk
    rw [mem_binList hlo] at hk
    omega
  have hpb : lo ≤ hi → (bandScan mag lo hi).2.1 < 256 := by
    intro hle
    rcases bandScan_peakBin_cases mag lo hi with h | h
    · rw [h]
      omega
    · exact hmem _ h
  refine ⟨hlo, hhi, hmem, fun hle => ⟨hpb hle, by omega⟩, ?_, ?_⟩
  · intro k hk
    have : k ≠ 256 := by
      have := hmem k hk
      omega
    by_cases h0 : k = 0
    · simp [h0]
    · simp [h0, this]
  · intro hle
    have h256 : (bandScan mag lo hi).2.1 ≠ 256 := by
      have := hpb hle
      omega
    by_cases h0 : (bandScan mag lo hi).2.1 = 0
    · simp [h0]
    · simp [h0, h256]

theorem c10_witness :
    bandRange F1 1 10 100 1 = (10, 10) ∧
    (∀ k ∈ binList 10 10, k < 256) ∧
    (bandScan (#[] : Array ℚ) 10 10).2.1 < 256 := by
  have hr : bandRange F1 1 10 100 1 = (10, 10) := by
    simp only [bandRange, F1, croundf, Prod.mk.injEq]
    norm_num
  have h := c10_scan_in_bounds F1 (#[] : Array ℚ) 1 10 100 1 10 10 hr
  exact ⟨hr, h.2.2.1, (h.2.2.2.1 (by norm_num)).1⟩

/-! ### Envelope smoothing coefficients (parameterChanged) -/

/-- The identity interpretation of the float library (each function
returns its argument), used to separate candidate implementations. -/
def Fid : Flt :=
  ⟨fun x => x, fun x => x, fun x => x, fun x => x, fun _ e => e⟩

theorem parameterChanged_attack_ne (F : Flt) (sr : ℚ) (v : ℕ → ℤ)
    (i : ℕ) (s : St) (h : i ≠ 11) :
    (parameterChanged F sr v i s).attackCoeff = s.attackCoeff := by
  cases s
  unfold parameterChanged
  split_ifs <;> rfl

theorem parameterChanged_release_ne (F : Flt) (sr : ℚ) (v : ℕ → ℤ)
    (i : ℕ) (s : St) (h : i ≠ 12) :
    (parameterChanged F sr v i s).releaseCoeff = s.releaseCoeff := by
  cases s
  unfold parameterChanged
  split_ifs <;> rfl

theorem parameterChanged_attack_eq (F : Flt) (sr : ℚ) (v : ℕ → ℤ)
    (s : St) :
    (parameterChanged F sr v 11 s).attackCoeff =
      1 - F.expf (-1 / timeUpdates (v 11 : ℚ)) := by
  cases s
  simp [parameterChanged]

theorem parameterChanged_release_eq (F : Flt) (sr : ℚ) (v : ℕ → ℤ)
    (s : St) :
    (parameterChanged F sr v 12 s).releaseCoeff =
      1 - F.expf (-1 / timeUpdates (v 12 : ℚ)) := by
  cases s
  simp [parameterChanged]

theorem coeff_bound (F : Flt) (u : ℚ)
    (hexp : ∀ x ≤ 0, 0 ≤ F.expf x ∧ F.expf x ≤ 1) (hu : 0 < u) :
    0 ≤ 1 - F.expf (-1 / u) ∧ 1 - F.expf (-1 / u) ≤ 1 := by
  have hx : -1 / u ≤ 0 := by
    have : 0 ≤ 1 / u := by positivity
    have hrw : -1 / u = -(1 / u) := by ring
    rw [hrw]
    linarith
  obtain ⟨h0, h1⟩ := hexp _ hx
  constructor <;> linarith

theorem timeUpdates_pos (ms : ℚ) (h : 1 ≤ ms) : 0 < timeUpdates ms := by
  unfold timeUpdates kFftRateHz
  nlinarith

/-- Claim C4 counterexample: at the minimum reachable attack time of
1 ms the code computes `updates = (1/1000)·60 = 0.06`, which is below
one update period (`updates < 1`), i.e. the minimum time is NOT clamped
to one update period; under the interpretation `expf = id` (allowed
because `expf` is uninterpreted), the code produces coefficient
`1 + 50/3`, whereas a clamp to one update period would produce
`1 - expf(-1/1) = 2`. -/
theorem c4_counterexample :
    timeUpdates 1 = 3 / 50 ∧ ¬((1 : ℚ) ≤ timeUpdates 1) ∧
    (parameterChanged Fid 48000 (fun _ => 1) 11
        (constructSt Fid)).attackCoeff = 1 + 50 / 3 ∧
    ((1 : ℚ) + 50 / 3) ≠ 1 - Fid.expf (-1 / 1) := by
  have ht : timeUpdates (1 : ℚ) = 3 / 50 := by
    norm_num [timeUpdates, kFftRateHz]
  refine ⟨ht, by rw [ht]; norm_num, ?_, by norm_num [Fid]⟩
  rw [parameterChanged_attack_eq]
  norm_num [ht, Fid]

/-- Claim C4 (amended): each coefficient is recomputed only when its
owning time parameter changes, via `coeff = 1 - expf(-1/updates)` with
`updates = (timeMs/1000) * 60`; for reachable parameter values (attack
at least 1 ms, release at least 10 ms, both positive) `updates > 0` and
the coefficient lies in `[0, 1]` whenever `expf` maps nonpositive
arguments into `[0, 1]` (as the real exponential does).  The guard
against `updates ≤ 0` is the host-enforced positive parameter minimum —
the time is NOT clamped up to one full update period. -/
theorem c4_coefficients (F : Flt) (sr : ℚ) (v : ℕ → ℤ) (i : ℕ) (s : St)
    (hexp : ∀ x ≤ 0, 0 ≤ F.expf x ∧ F.expf x ≤ 1)
    (hatk : 1 ≤ v 11) (hrel : 10 ≤ v 12) :
    (i ≠ 11 → (parameterChanged F sr v i s).attackCoeff = s.attackCoeff) ∧
    (i ≠ 12 → (parameterChanged F sr v i s).releaseCoeff = s.releaseCoeff) ∧
    (parameterChanged F sr v 11 s).attackCoeff =
      1 - F.expf (-1 / ((v 11 : ℚ) / 1000 * 60)) ∧
    (parameterChanged F sr v 12 s).releaseCoeff =
      1 - F.expf (-1 / ((v 12 : ℚ) / 1000 * 60)) ∧
    (0 ≤ (parameterChanged F sr v 11 s).attackCoeff ∧
      (parameterChanged F sr v 11 s).attackCoeff ≤ 1) ∧
    (0 ≤ (parameterChanged F sr v 12 s).releaseCoeff ∧
      (parameterChanged F sr v 12 s).releaseCoeff ≤ 1) := by
  have hq1 : (1 : ℚ) ≤ (v 11 : ℚ) := by exact_mod_cast hatk
  have hq2 : (1 : ℚ) ≤ (v 12 : ℚ) := by
    have : (10 : ℚ) ≤ (v 12 : ℚ) := by exact_mod_cast hrel
    linarith
  have hu1 := timeUpdates_pos _ hq1
  have hu2 := timeUpdates_pos _ hq2
  refine ⟨parameterChanged_attack_ne F sr v i s,
    parameterChanged_release_ne F sr v i s, ?_, ?_, ?_, ?_⟩
  · rw [parameterChanged_attack_eq]
    rfl
  · rw [parameterChanged_release_eq]
    rfl
  · rw [parameterChanged_attack_eq]
    exact coeff_bound F _ hexp hu1
  · rw [parameterChanged_release_eq]
    exact coeff_bound F _ hexp hu2

theorem c4_witness :
    (∀ x ≤ 0, 0 ≤ F0.expf x ∧ F0.expf x ≤ 1) ∧
    (1 : ℤ) ≤ (fun _ => (10 : ℤ)) 11 ∧ (10 : ℤ) ≤ (fun _ => (10 : ℤ)) 12 ∧
    (parameterChanged F0 48000 (fun _ => 10) 0
        (constructSt F0)).attackCoeff = (constructSt F0).attackCoeff ∧
    (0 ≤ (parameterChanged F0 48000 (fun _ => 10) 11
        (constructSt F0)).attackCoeff ∧
      (parameterChanged F0 48000 (fun _ => 10) 11
        (constructSt F0)).attackCoeff ≤ 1) := by
  have hexp : ∀ x ≤ 0, 0 ≤ F0.expf x ∧ F0.expf x ≤ 1 := by
    intro x _
    constructor <;> norm_num [F0]
  have h := c4_coefficients F0 48000 (fun _ => 10) 0 (constructSt F0) hexp
    (by norm_num) (by norm_num)
  exact ⟨hexp, by norm_num, by norm_num, h.1 (by norm_num), h.2.2.2.2.1⟩

/-! ### State invariants (claim C7) -/

theorem foldl_qset_pred (P : ℚ → Prop) (f : ℕ → ℚ) (l : List ℕ)
    (a : Array ℚ) (ha : ∀ i, P (qget a i)) (hf : ∀ k ∈ l, P (f k)) :
    ∀ i, P (qget (l.foldl (fun m k => qset m k (f k)) a) i) := by
  induction l generalizing a with
  | nil => exact ha
  | cons k l ih =>
    rw [List.foldl_cons]
    refine ih _ ?_ (fun k' hk' => hf k' (List.mem_cons_of_mem _ hk'))
    intro i
    rw [qget_qset]
    split
    · exact hf k (List.mem_cons_self k l)
    · exact ha i

theorem foldl_qset_pred2 (P : ℚ → Prop) (g : ℕ → ℚ → ℚ) (l : List ℕ)
    (a : Array ℚ) (ha : ∀ i, P (qget a i))
    (hg : ∀ k ∈ l, ∀ x, P x → P (g k x)) :
    ∀ i, P (qget (l.foldl (fun m k => qset m k (g k (qget m k))) a) i) := by
  induction l generalizing a with
  | nil => exact ha
  | cons k l ih =>
    rw [List.foldl_cons]
    refine ih _ ?_ (fun k' hk' => hg k' (List.mem_cons_of_mem _ hk'))
    intro i
    rw [qget_qset]
    split
    · exact hg k (List.mem_cons_self k l) _ (ha k)
    · exact ha i

theorem envUpdate_mem (a r cur t : ℚ) (ha0 : 0 ≤ a) (ha1 : a ≤ 1)
    (hr0 : 0 ≤ r) (hr1 : r ≤ 1) (hc0 : 0 ≤ cur) (hc1 : cur ≤ 1)
    (ht0 : 0 ≤ t) (ht1 : t ≤ 1) :
    0 ≤ envUpdate a r cur t ∧ envUpdate a r cur t ≤ 1 := by
  unfold envUpdate
  split <;> constructor <;> nlinarith

theorem envToVolts_mem (e : ℚ) (h0 : 0 ≤ e) (h1 : e ≤ 1) :
    0 ≤ envToVolts e ∧ envToVolts e ≤ 10 := by
  unfold envToVolts kReferenceVoltage
  rw [if_neg (not_lt.mpr h0)]
  constructor <;> nlinarith

theorem passMag_nonneg (F : Flt) (s : St)
    (hsq : ∀ y, 0 ≤ y → 0 ≤ F.sqrtf y)
    (hm : ∀ i, 0 ≤ qget s.magnitude i) :
    ∀ i, 0 ≤ qget (passMag F s) i := by
  unfold passMag
  refine foldl_qset_pred (fun x => 0 ≤ x)
    (fun k => F.sqrtf ((cget (passFft F s) k).real *
      (cget (passFft F s) k).real +
      (cget (passFft F s) k).imag * (cget (passFft F s) k).imag))
    (List.range 256) s.magnitude hm ?_
  intro k _
  apply hsq
  have h1 := mul_self_nonneg ((cget (passFft F s) k).real)
  have h2 := mul_self_nonneg ((cget (passFft F s) k).imag)
  linarith

theorem passEnvWith_mem (F : Flt) (sr : ℚ) (pk : Bool) (s : St)
    (mag : Array ℚ) (ha0 : 0 ≤ s.attackCoeff) (ha1 : s.attackCoeff ≤ 1)
    (hr0 : 0 ≤ s.releaseCoeff) (hr1 : s.releaseCoeff ≤ 1)
    (henv : ∀ b, 0 ≤ qget s.env b ∧ qget s.env b ≤ 1) :
    ∀ b, 0 ≤ qget (passEnvWith F sr pk s mag) b ∧
      qget (passEnvWith F sr pk s mag) b ≤ 1 := by
  unfold passEnvWith
  refine foldl_qset_pred2 (fun x => 0 ≤ x ∧ x ≤ 1)
    (fun b x => envUpdate s.attackCoeff s.releaseCoeff x
      (bandTarget F sr pk s mag b)) (List.range 3) s.env henv ?_
  intro b _ x hx
  exact envUpdate_mem _ _ _ _ ha0 ha1 hr0 hr1 hx.1 hx.2
    (clamp01_mem _).1 (clamp01_mem _).2

theorem runAnalysis_magnitude (F : Flt) (sr : ℚ) (pk : Bool) (s : St) :
    (runAnalysis F sr pk s).magnitude = passMag F s := by
  cases s
  simp only [runAnalysis]

theorem runAnalysis_env (F : Flt) (sr : ℚ) (pk : Bool) (s : St) :
    (runAnalysis F sr pk s).env = passEnv F sr pk s := by
  cases s
  simp only [runAnalysis]

theorem stepSample_inv (F : Flt) (I : ℤ) (sr : ℚ) (pk : Bool) (s : St)
    (x : ℚ) (hsq : ∀ y, 0 ≤ y → 0 ≤ F.sqrtf y)
    (ha0 : 0 ≤ s.attackCoeff) (ha1 : s.attackCoeff ≤ 1)
    (hr0 : 0 ≤ s.releaseCoeff) (hr1 : s.releaseCoeff ≤ 1)
    (hmag : ∀ i, 0 ≤ qget s.magnitude i)
    (henv : ∀ b, 0 ≤ qget s.env b ∧ qget s.env b ≤ 1) :
    (∀ i, 0 ≤ qget (stepSample F I sr pk s x).magnitude i) ∧
    (∀ b, 0 ≤ qget (stepSample F I sr pk s x).env b ∧
      qget (stepSample F I sr pk s x).env b ≤ 1) ∧
    (stepSample F I sr pk s x).attackCoeff = s.attackCoeff ∧
    (stepSample F I sr pk s x).releaseCoeff = s.releaseCoeff := by
  obtain ⟨ib, tb, fo, mg, ev, ac, rc, sa, sf, pc, pb, bo, ys, di⟩ := s
  unfold stepSample stepFire
  split
  · rw [runAnalysis_magnitude, runAnalysis_env, runAnalysis_attack,
      runAnalysis_release]
    unfold passEnv
    refine ⟨passMag_nonneg F _ hsq hmag, ?_, rfl, rfl⟩
    exact passEnvWith_mem F _ pk _ _ ha0 ha1 hr0 hr1 henv
  · exact ⟨hmag, henv, rfl, rfl⟩

theorem foldl_stepSample_inv (F : Flt) (I : ℤ) (sr : ℚ) (pk : Bool)
    (xs : List ℚ) (s : St) (hsq : ∀ y, 0 ≤ y → 0 ≤ F.sqrtf y)
    (ha0 : 0 ≤ s.attackCoeff) (ha1 : s.attackCoeff ≤ 1)
    (hr0 : 0 ≤ s.releaseCoeff) (hr1 : s.releaseCoeff ≤ 1)
    (hmag : ∀ i, 0 ≤ qget s.magnitude i)
    (henv : ∀ b, 0 ≤ qget s.env b ∧ qget s.env b ≤ 1) :
    (∀ i, 0 ≤ qget (xs.foldl (stepSample F I sr pk) s).magnitude i) ∧
    (∀ b, 0 ≤ qget (xs.foldl (stepSample F I sr pk) s).env b ∧
      qget (xs.foldl (stepSample F I sr pk) s).env b ≤ 1) := by
  induction xs generalizing s with
  | nil => exact ⟨hmag, henv⟩
  | cons x xs ih =>
    rw [List.foldl_cons]
    obtain ⟨h1, h2, h3, h4⟩ :=
      stepSample_inv F I sr pk s x hsq ha0 ha1 hr0 hr1 hmag henv
    exact ih _ (h3 ▸ ha0) (h3 ▸ ha1) (h4 ▸ hr0) (h4 ▸ hr1) h1 h2

theorem entryFix_magnitude (s : St) :
    (entryFix s).magnitude = s.magnitude := by
  cases s
  unfold entryFix
  split <;> rfl

theorem entryFix_env (s : St) : (entryFix s).env = s.env := by
  cases s
  unfold entryFix
  split <;> rfl

theorem entryFix_attack (s : St) :
    (entryFix s).attackCoeff = s.attackCoeff := by
  cases s
  unfold entryFix
  split <;> rfl

theorem entryFix_release (s : St) :
    (entryFix s).releaseCoeff = s.releaseCoeff := by
  cases s
  unfold entryFix
  split <;> rfl

/-- Claim C7: invariants established by `construct` and preserved by
every `step` call: the write cursor stays in `[0, N)` (an out-of-range
cursor is reset to 0 on entry), magnitudes stay nonnegative (for any
`sqrtf` that is nonnegative on nonnegative arguments), envelopes stay in
`[0, 1]` (for coefficients in `[0, 1]`, which the real `expf` yields),
and every emitted voltage `envToVolts(env[b])` lies in `[0, 10]`. -/
theorem c7_state_invariants :
    (∀ F : Flt, (constructSt F).samplesAccumulated = 0 ∧
      (∀ i, 0 ≤ qget (constructSt F).magnitude i) ∧
      (∀ b, 0 ≤ qget (constructSt F).env b ∧
        qget (constructSt F).env b ≤ 1)) ∧
    (∀ s : St, (s.samplesAccumulated < 0 ∨ 512 ≤ s.samplesAccumulated) →
      (entryFix s).samplesAccumulated = 0) ∧
    (∀ (F : Flt) (sr : ℚ) (pk : Bool) (s : St) (samples : List ℚ),
      (∀ y, 0 ≤ y → 0 ≤ F.sqrtf y) →
      0 ≤ s.attackCoeff → s.attackCoeff ≤ 1 →
      0 ≤ s.releaseCoeff → s.releaseCoeff ≤ 1 →
      (∀ i, 0 ≤ qget s.magnitude i) →
      (∀ b, 0 ≤ qget s.env b ∧ qget s.env b ≤ 1) →
      (0 ≤ (stepBlock F sr pk s samples).samplesAccumulated ∧
        (stepBlock F sr pk s samples).samplesAccumulated < 512) ∧
      (∀ i, 0 ≤ qget (stepBlock F sr pk s samples).magnitude i) ∧
      (∀ b, 0 ≤ qget (stepBlock F sr pk s samples).env b ∧
        qget (stepBlock F sr pk s samples).env b ≤ 1) ∧
      (∀ b, 0 ≤ envToVolts (qget (stepBlock F sr pk s samples).env b) ∧
        envToVolts (qget (stepBlock F sr pk s samples).env b) ≤ 10)) := by
  refine ⟨?_, ?_, ?_⟩
  · intro F
    refine ⟨rfl, ?_, ?_⟩
    · intro i
      rw [show (constructSt F).magnitude = Array.mkArray 256 0 from rfl,
        qget_mkArray]
    · intro b
      rw [show (constructSt F).env = Array.mkArray 3 0 from rfl,
        qget_mkArray]
      norm_num
  · intro s h
    unfold entryFix
    rw [if_pos]
    rcases h with h | h
    · exact Or.inl h
    · exact Or.inr (not_lt.mp (not_lt.mpr h))
  · intro F sr pk s samples hsq ha0 ha1 hr0 hr1 hmag henv
    have hfix0 := entryFix_cursor_range s
    have hinv := foldl_stepSample_inv F (truncQ (effRate sr / kFftRateHz))
      (effRate sr) pk samples (entryFix s) hsq
      ((entryFix_attack s) ▸ ha0) ((entryFix_attack s) ▸ ha1)
      ((entryFix_release s) ▸ hr0) ((entryFix_release s) ▸ hr1)
      (fun i => (entryFix_magnitude s) ▸ hmag i)
      (fun b => (entryFix_env s) ▸ henv b)
    have hcur := foldl_stepSample_cursor_range F
      (truncQ (effRate sr / kFftRateHz)) (effRate sr) pk samples
      (entryFix s) hfix0.1 hfix0.2
    refine ⟨hcur, hinv.1, hinv.2, ?_⟩
    intro b
    exact envToVolts_mem _ (hinv.2 b).1 (hinv.2 b).2

theorem c7_witness :
    (∀ y, (0 : ℚ) ≤ y → 0 ≤ F0.sqrtf y) ∧
    0 ≤ (constructSt F0).attackCoeff ∧ (constructSt F0).attackCoeff ≤ 1 ∧
    (∀ b, 0 ≤ envToVolts
        (qget (stepBlock F0 48000 false (constructSt F0) [5, -3]).env b) ∧
      envToVolts
        (qget (stepBlock F0 48000 false (constructSt F0) [5, -3]).env b)
          ≤ 10) := by
  have hsq : ∀ y, (0 : ℚ) ≤ y → 0 ≤ F0.sqrtf y := by
    intro y _
    norm_num [F0]
  have ha0 : (0 : ℚ) ≤ (constructSt F0).attackCoeff := by
    norm_num [constructSt, F0]
  have ha1 : (constructSt F0).attackCoeff ≤ 1 := by
    norm_num [constructSt, F0]
  have hr0 : (0 : ℚ) ≤ (constructSt F0).releaseCoeff := by
    norm_num [constructSt, F0]
  have hr1 : (constructSt F0).releaseCoeff ≤ 1 := by
    norm_num [constructSt, F0]
  have hmag : ∀ i, 0 ≤ qget (constructSt F0).magnitude i := by
    intro i
    rw [show (constructSt F0).magnitude = Array.mkArray 256 0 from rfl,
      qget_mkArray]
  have henv : ∀ b, 0 ≤ qget (constructSt F0).env b ∧
      qget (constructSt F0).env b ≤ 1 := by
    intro b
    rw [show (constructSt F0).env = Array.mkArray 3 0 from rfl,
      qget_mkArray]
    norm_num
  exact ⟨hsq, ha0, ha1,
    (c7_state_invariants.2.2 F0 48000 false (constructSt F0) [5, -3] hsq
      ha0 ha1 hr0 hr1 hmag henv).2.2.2⟩

/-! ### Silence: all-zero buffers stay all-zero through the pipeline -/

/-- Every (in-bounds or not) read of the array gives 0. -/
def AllZeroQ (a : Array ℚ) : Prop := ∀ i, qget a i = 0

/-- Every (in-bounds or not) read of the array gives `Complex(0,0)`. -/
def AllZeroC (a : Array Cx) : Prop := ∀ i, cget a i = Cx.zero

theorem foldl_pres {α β : Type} (P : α → Prop) (f : α → β → α)
    (hf : ∀ a b, P a → P (f a b)) (l : List β) (a : α) (ha : P a) :
    P (l.foldl f a) := by
  induction l generalizing a with
  | nil => exact ha
  | cons b l ih =>
    rw [List.foldl_cons]
    exact ih _ (hf a b ha)

theorem qset_allZero {a : Array ℚ} (ha : AllZeroQ a) (i : ℕ) :
    AllZeroQ (qset a i 0) := by
  intro j
  rw [qget_qset]
  split
  · rfl
  · exact ha j

theorem cset_allZero {a : Array Cx} (ha : AllZeroC a) (i : ℕ) :
    AllZeroC (cset a i Cx.zero) := by
  intro j
  rw [cget_cset]
  split
  · rfl
  · exact ha j

theorem swapAt_allZero {a : Array Cx} (ha : AllZeroC a) (i j : ℕ) :
    AllZeroC (swapAt a i j) := by
  unfold swapAt
  rw [ha i, ha j]
  exact cset_allZero (cset_allZero ha i) j

theorem cxZero_mul (w : Cx) : Cx.zero * w = Cx.zero := by
  show Cx.mul Cx.zero w = Cx.zero
  unfold Cx.mul Cx.zero
  norm_num

theorem cxZero_add : Cx.zero + Cx.zero = Cx.zero := by
  show Cx.add Cx.zero Cx.zero = Cx.zero
  unfold Cx.add Cx.zero
  norm_num

theorem cxZero_sub : Cx.zero - Cx.zero = Cx.zero := by
  show Cx.sub Cx.zero Cx.zero = Cx.zero
  unfold Cx.sub Cx.zero
  norm_num

theorem bitReverse_allZero {a : Array Cx} (ha : AllZeroC a) (n : ℕ) :
    AllZeroC (bitReverse a n) := by
  unfold bitReverse
  split
  · exact ha
  · have h := foldl_pres (fun p : Array Cx × ℕ => AllZeroC p.1)
      (fun p i =>
        if i < brAdvance p.2 (n / 2)
        then (swapAt p.1 i (brAdvance p.2 (n / 2)), brAdvance p.2 (n / 2))
        else (p.1, brAdvance p.2 (n / 2)))
      (fun p i hp => by
        dsimp only
        split
        · exact swapAt_allZero hp _ _
        · exact hp)
      (List.range' 1 (n - 1)) (a, 0) ha
    exact h

theorem fftInner_allZero {a : Array Cx} (ha : AllZeroC a) (wlen : Cx)
    (i len : ℕ) : AllZeroC (fftInner a wlen i len) := by
  unfold fftInner
  exact foldl_pres (fun p : Array Cx × Cx => AllZeroC p.1)
    (fun p j =>
      (cset (cset p.1 (i + j) (cget p.1 (i + j) +
          cget p.1 (i + j + len / 2) * p.2)) (i + j + len / 2)
        (cget p.1 (i + j) - cget p.1 (i + j + len / 2) * p.2),
       p.2 * wlen))
    (fun p j hp => by
      dsimp only
      rw [hp (i + j), hp (i + j + len / 2), cxZero_mul, cxZero_add,
        cxZero_sub]
      exact cset_allZero (cset_allZero hp _) _)
    (List.range (len / 2)) (a, Cx.one) ha

theorem fftStage_allZero (F : Flt) {a : Array Cx} (ha : AllZeroC a)
    (n len : ℕ) : AllZeroC (fftStage F a n len) := by
  unfold fftStage
  exact foldl_pres AllZeroC _
    (fun d q hd => fftInner_allZero hd _ _ _) _ a ha

theorem simpleFFT_allZero (F : Flt) {a : Array Cx} (ha : AllZeroC a)
    (n : ℕ) : AllZeroC (simpleFFT F a n) := by
  unfold simpleFFT
  split
  · exact ha
  · exact foldl_pres AllZeroC _ (fun d len hd => fftStage_allZero F hd n len)
      _ _ (bitReverse_allZero ha n)

theorem realFFT_allZero (F : Flt) {ri : Array ℚ} {co : Array Cx}
    (hri : AllZeroQ ri) (hco : AllZeroC co) (n : ℕ) :
    AllZeroC (realFFT F ri co n) := by
  unfold realFFT
  split
  · exact hco
  · refine simpleFFT_allZero F ?_ n
    exact foldl_pres AllZeroC
      (fun c i => cset c i ⟨qget ri i, 0⟩)
      (fun c i hc => by
        dsimp only
        rw [hri i]
        exact cset_allZero hc i)
      (List.range n) co hco

theorem passTemp_allZero (F : Flt) {s : St} (hin : AllZeroQ s.inputBuffer)
    (htmp : AllZeroQ s.tempBuffer) : AllZeroQ (passTemp F s) := by
  unfold passTemp
  refine foldl_pres AllZeroQ _ (fun t i ht => by
    rw [show qget t i * hannWindow F i = qget t i * hannWindow F i from rfl]
    rw [ht i, zero_mul]
    exact qset_allZero ht i) _ _ ?_
  exact foldl_pres AllZeroQ _ (fun t i ht => by
    rw [hin ((s.samplesAccumulated.toNat + i) % 512)]
    exact qset_allZero ht i) _ _ htmp

theorem passMag_allZero (F : Flt) {s : St} (hs0 : F.sqrtf 0 = 0)
    (hin : AllZeroQ s.inputBuffer) (htmp : AllZeroQ s.tempBuffer)
    (hfo : AllZeroC s.fftOutput) (hmg : AllZeroQ s.magnitude) :
    AllZeroQ (passMag F s) := by
  have hfft : AllZeroC (passFft F s) := by
    unfold passFft
    exact realFFT_allZero F (passTemp_allZero F hin htmp) hfo 512
  unfold passMag
  refine foldl_pres AllZeroQ _ (fun m k hm => by
    rw [hfft k]
    rw [show (Cx.zero.real * Cx.zero.real + Cx.zero.imag * Cx.zero.imag : ℚ)
      = 0 from by norm_num [Cx.zero]]
    rw [hs0]
    exact qset_allZero hm k) _ _ hmg

theorem bandScan_zeroMag {mag : Array ℚ} (hz : AllZeroQ mag) (lo hi : ℤ) :
    (bandScan mag lo hi).1 = 0 ∧ (bandScan mag lo hi).2.2 = 0 := by
  unfold bandScan
  have h := foldl_pres
    (fun acc : ℚ × ℕ × ℚ => acc.1 = 0 ∧ acc.2.2 = 0)
    (scanStep mag)
    (fun acc k hacc => by
      unfold scanStep
      rw [hz k]
      dsimp only
      constructor
      · rw [if_neg (by rw [hacc.1]; exact lt_irrefl 0)]
        exact hacc.1
      · rw [hacc.2]
        ring)
    (binList lo hi) (0, lo.toNat, 0) ⟨rfl, rfl⟩
  exact h

theorem bandEnergyRaw_zeroMag (F : Flt) {mag : Array ℚ}
    (hz : AllZeroQ mag) (usePeak : Bool) (lo hi : ℤ) :
    bandEnergyRaw F mag usePeak lo hi = 0 := by
  obtain ⟨h1, h2⟩ := bandScan_zeroMag hz lo hi
  unfold bandEnergyRaw
  split
  · split
    · rw [h1, zero_mul]
    · rw [if_neg (by rw [h2]; exact lt_irrefl 0)]
  · rfl

theorem clamp01_zero : clamp01 0 = 0 := by
  norm_num [clamp01]

theorem qget_oob (a : Array ℚ) (i : ℕ) (h : a.size ≤ i) : qget a i = 0 := by
  unfold qget
  rw [Array.getD, dif_neg (by omega)]

theorem foldl_qset_size (g : ℕ → ℚ → ℚ) (l : List ℕ) (a : Array ℚ) :
    (l.foldl (fun m b => qset m b (g b (qget m b))) a).size = a.size := by
  induction l generalizing a with
  | nil => rfl
  | cons b l ih =>
    rw [List.foldl_cons, ih, qset_size]

theorem foldl_qset_map (g : ℕ → ℚ → ℚ) (n : ℕ) (a : Array ℚ) (j : ℕ) :
    qget ((List.range n).foldl
        (fun m b => qset m b (g b (qget m b))) a) j =
      if j < n ∧ j < a.size then g j (qget a j) else qget a j := by
  induction n with
  | zero => simp
  | succ n ih =>
    rw [List.range_succ, List.foldl_append, List.foldl_cons, List.foldl_nil]
    have hsize := foldl_qset_size g (List.range n) a
    rw [qget_qset]
    by_cases hn : j = n
    · subst hn
      by_cases hs : j < a.size
      · rw [if_pos ⟨rfl, by rw [hsize]; exact hs⟩, ih,
          if_neg (by omega), if_pos ⟨Nat.lt_succ_self j, hs⟩]
      · rw [if_neg (by rw [hsize]; omega), ih, if_neg (by omega),
          if_neg (by omega)]
    · rw [if_neg (by omega), ih]
      by_cases h2 : j < n ∧ j < a.size
      · rw [if_pos h2, if_pos ⟨by omega, h2.2⟩]
      · rw [if_neg h2, if_neg (by omega)]

theorem passEnvWith_size (F : Flt) (sr : ℚ) (pk : Bool) (s : St)
    (mag : Array ℚ) : (passEnvWith F sr pk s mag).size = s.env.size := by
  unfold passEnvWith
  exact foldl_qset_size
    (fun b x => envUpdate s.attackCoeff s.releaseCoeff x
      (bandTarget F sr pk s mag b)) (List.range 3) s.env

theorem passEnvWith_qget (F : Flt) (sr : ℚ) (pk : Bool) (s : St)
    (mag : Array ℚ) (b : ℕ) :
    qget (passEnvWith F sr pk s mag) b =
      if b < 3 ∧ b < s.env.size then
        envUpdate s.attackCoeff s.releaseCoeff (qget s.env b)
          (bandTarget F sr pk s mag b)
      else qget s.env b := by
  unfold passEnvWith
  exact foldl_qset_map
    (fun b x => envUpdate s.attackCoeff s.releaseCoeff x
      (bandTarget F sr pk s mag b)) 3 s.env b

theorem runAnalysis_tempBuffer (F : Flt) (sr : ℚ) (pk : Bool) (s : St) :
    (runAnalysis F sr pk s).tempBuffer = passTemp F s := by
  cases s
  simp only [runAnalysis]

theorem runAnalysis_fftOutput (F : Flt) (sr : ℚ) (pk : Bool) (s : St) :
    (runAnalysis F sr pk s).fftOutput = passFft F s := by
  cases s
  simp only [runAnalysis]

theorem envUpdate_zero_target (a r cur : ℚ) (hc : 0 ≤ cur) :
    envUpdate a r cur 0 = (1 - r) * cur := by
  unfold envUpdate
  rw [if_neg (not_lt.mpr hc)]
  ring

theorem cget_mkArray (n j : ℕ) :
    cget (Array.mkArray n Cx.zero) j = Cx.zero := by
  unfold cget
  by_cases hj : j < n
  · rw [Array.getD, dif_pos (by simpa using hj)]
    simp
  · rw [Array.getD, dif_neg (by simpa using hj)]

theorem qget_env3 (e0 e1 e2 : ℚ) (b : ℕ) :
    qget #[e0, e1, e2] b =
      if b = 0 then e0 else if b = 1 then e1
        else if b = 2 then e2 else 0 := by
  rcases b with _ | (_ | (_ | n))
  · rfl
  · rfl
  · rfl
  · have h3 : (#[e0, e1, e2] : Array ℚ).size = 3 := rfl
    rw [qget_oob _ _ (by rw [h3]; omega), if_neg (by omega),
      if_neg (by omega), if_neg (by omega)]

/-- The buffer-resident state of a pipeline that has been fed only
silence: every buffer all-zero, and the envelope array of size 3. -/
def ZSt (s : St) : Prop :=
  AllZeroQ s.inputBuffer ∧ AllZeroQ s.tempBuffer ∧ AllZeroC s.fftOutput ∧
    AllZeroQ s.magnitude ∧ s.env.size = 3

theorem silent_fire (F : Flt) (I : ℤ) (sr : ℚ) (pk : Bool) (t : St)
    (hs0 : F.sqrtf 0 = 0) (hz : ZSt t) (henv : ∀ b, 0 ≤ qget t.env b) :
    ZSt (stepFire F I sr pk t) ∧
    (stepFire F I sr pk t).releaseCoeff = t.releaseCoeff ∧
    (∀ b, qget (stepFire F I sr pk t).env b =
      if t.samplesSinceLastFFT ≥ I ∨ t.samplesSinceLastFFT = 512
      then (1 - t.releaseCoeff) * qget t.env b else qget t.env b) := by
  obtain ⟨hzin, hztmp, hzfo, hzmg, hze⟩ := hz
  unfold stepFire
  by_cases hcond : t.samplesSinceLastFFT ≥ I ∨ t.samplesSinceLastFFT = 512
  · rw [if_pos hcond]
    refine ⟨⟨?_, ?_, ?_, ?_, ?_⟩, runAnalysis_release F sr pk t, ?_⟩
    · rw [runAnalysis_inputBuffer]
      exact hzin
    · rw [runAnalysis_tempBuffer]
      exact passTemp_allZero F hzin hztmp
    · rw [runAnalysis_fftOutput]
      unfold passFft
      exact realFFT_allZero F (passTemp_allZero F hzin hztmp) hzfo 512
    · rw [runAnalysis_magnitude]
      exact passMag_allZero F hs0 hzin hztmp hzfo hzmg
    · rw [runAnalysis_env]
      unfold passEnv
      rw [passEnvWith_size]
      exact hze
    · intro b
      rw [if_pos hcond, runAnalysis_env]
      unfold passEnv
      rw [passEnvWith_qget]
      have hzmag1 := passMag_allZero F hs0 hzin hztmp hzfo hzmg
      have htarget : bandTarget F sr pk t (passMag F t) b = 0 := by
        unfold bandTarget
        rw [bandEnergyRaw_zeroMag F hzmag1]
        exact clamp01_zero
      by_cases hb : b < 3
      · rw [if_pos ⟨hb, by rw [hze]; exact hb⟩, htarget,
          envUpdate_zero_target _ _ _ (henv b)]
      · rw [if_neg (by omega), qget_oob t.env b (by omega)]
        ring
  · rw [if_neg hcond]
    refine ⟨⟨hzin, hztmp, hzfo, hzmg, hze⟩, rfl, ?_⟩
    intro b
    rw [if_neg hcond]

theorem silent_step (F : Flt) (I : ℤ) (sr : ℚ) (pk : Bool) (s : St)
    (hs0 : F.sqrtf 0 = 0) (hz : ZSt s) (henv : ∀ b, 0 ≤ qget s.env b) :
    ZSt (stepSample F I sr pk s 0) ∧
    (stepSample F I sr pk s 0).releaseCoeff = s.releaseCoeff ∧
    (∀ b, qget (stepSample F I sr pk s 0).env b =
      if s.samplesSinceLastFFT + 1 ≥ I ∨ s.samplesSinceLastFFT + 1 = 512
      then (1 - s.releaseCoeff) * qget s.env b else qget s.env b) := by
  obtain ⟨hzin, hztmp, hzfo, hzmg, hze⟩ := hz
  exact silent_fire F I sr pk
    { s with
      inputBuffer := qset s.inputBuffer s.samplesAccumulated.toNat 0,
      samplesAccumulated := (s.samplesAccumulated + 1) % 512,
      samplesSinceLastFFT := s.samplesSinceLastFFT + 1 }
    hs0 ⟨qset_allZero hzin _, hztmp, hzfo, hzmg, hze⟩ henv

/-- A silent-history pipeline state: all buffers zero (as after
construction and any amount of silence), envelopes at `e0, e1, e2`, and
prescribed smoothing coefficients. -/
def silentInit (a r e0 e1 e2 : ℚ) : St where
  inputBuffer := Array.mkArray 512 0
  tempBuffer := Array.mkArray 512 0
  fftOutput := Array.mkArray 512 Cx.zero
  magnitude := Array.mkArray 256 0
  env := #[e0, e1, e2]
  attackCoeff := a
  releaseCoeff := r
  samplesAccumulated := 0
  samplesSinceLastFFT := 0
  potCentres := Array.mkArray 3 0
  potCentreBins := Array.mkArray 3 0
  bandwidthOctaves := 0.333
  yScale := 1
  displayInit := false

theorem silence_run (F : Flt) (pk : Bool) (a r e0 e1 e2 : ℚ)
    (hs0 : F.sqrtf 0 = 0) (hr1 : r ≤ 1)
    (he0 : 0 ≤ e0) (he1 : 0 ≤ e1) (he2 : 0 ≤ e2) (k : ℕ) :
    ZSt ((List.replicate k (0 : ℚ)).foldl (stepSample F 512 30720 pk)
      (silentInit a r e0 e1 e2)) ∧
    ((List.replicate k (0 : ℚ)).foldl (stepSample F 512 30720 pk)
      (silentInit a r e0 e1 e2)).releaseCoeff = r ∧
    ((List.replicate k (0 : ℚ)).foldl (stepSample F 512 30720 pk)
      (silentInit a r e0 e1 e2)).samplesSinceLastFFT =
        ((k % 512 : ℕ) : ℤ) ∧
    (∀ b, qget ((List.replicate k (0 : ℚ)).foldl
        (stepSample F 512 30720 pk) (silentInit a r e0 e1 e2)).env b =
      (1 - r) ^ (k / 512) * qget (silentInit a r e0 e1 e2).env b) := by
  induction k with
  | zero =>
    refine ⟨⟨?_, ?_, ?_, ?_, rfl⟩, rfl, rfl, ?_⟩
    · intro i
      exact qget_mkArray 512 i
    · intro i
      exact qget_mkArray 512 i
    · intro i
      exact cget_mkArray 512 i
    · intro i
      exact qget_mkArray 256 i
    · intro b
      simp
  | succ k ih =>
    obtain ⟨ihz, ihr, ihc, ihe⟩ := ih
    rw [List.replicate_succ', List.foldl_append, List.foldl_cons,
      List.foldl_nil]
    have henvS : ∀ b, 0 ≤ qget ((List.replicate k (0 : ℚ)).foldl
        (stepSample F 512 30720 pk) (silentInit a r e0 e1 e2)).env b := by
      intro b
      rw [ihe b]
      refine mul_nonneg (pow_nonneg (by linarith) _) ?_
      rw [show (silentInit a r e0 e1 e2).env = #[e0, e1, e2] from rfl,
        qget_env3]
      split_ifs
      · exact he0
      · exact he1
      · exact he2
      · exact le_refl 0
    obtain ⟨hz1, hr1s, he1s⟩ := silent_step F 512 30720 pk _ hs0 ihz henvS
    rw [ihc, ihr] at he1s
    refine ⟨hz1, by rw [hr1s, ihr], ?_, ?_⟩
    · rw [stepSample_counter, ihc]
      unfold schedNext
      split
      · rename_i h
        omega
      · rename_i h
        omega
    · intro b
      rw [he1s b]
      by_cases hfire : ((k % 512 : ℕ) : ℤ) + 1 ≥ 512 ∨
          ((k % 512 : ℕ) : ℤ) + 1 = 512
      · rw [if_pos hfire, ihe b]
        have hm : (k + 1) / 512 = k / 512 + 1 := by omega
        rw [hm, pow_succ]
        ring
      · rw [if_neg hfire, ihe b]
        have hm : (k + 1) / 512 = k / 512 := by omega
        rw [hm]

theorem silence_decay_block (F : Flt) (pk : Bool) (a r e0 e1 e2 : ℚ)
    (hs0 : F.sqrtf 0 = 0) (hr1 : r ≤ 1)
    (he0 : 0 ≤ e0) (he1 : 0 ≤ e1) (he2 : 0 ≤ e2) (k : ℕ) :
    ∀ b, qget (stepBlock F 30720 pk (silentInit a r e0 e1 e2)
        (List.replicate k 0)).env b =
      (1 - r) ^ (k / 512) * qget (silentInit a r e0 e1 e2).env b := by
  unfold stepBlock
  rw [show effRate 30720 = 30720 from by norm_num [effRate]]
  rw [show truncQ ((30720 : ℚ) / kFftRateHz) = 512 from by
    norm_num [truncQ, kFftRateHz]]
  rw [entryFix_of_range _ (le_refl 0) (by
    rw [show (silentInit a r e0 e1 e2).samplesAccumulated = 0 from rfl]
    norm_num)]
  exact (silence_run F pk a r e0 e1 e2 hs0 hr1 he0 he1 he2 k).2.2.2

/-- Claim C8 counterexample: from an all-zero-buffer state with
envelope 1/2 and release coefficient 1/2 (reachable after audio then
silence), eight full transform windows of silence (4096 samples at a
sample rate of 30720, i.e. interval exactly 512) leave the envelope at
`(1/2)^8 · 1/2 = 1/512` — convergent toward 0 but never exactly 0 in
exact arithmetic. -/
theorem c8_counterexample :
    qget (stepBlock F0 30720 false
        (silentInit (1/2) (1/2) (1/2) 0 0)
        (List.replicate 4096 0)).env 0 = 1 / 512 ∧
    (1 / 512 : ℚ) ≠ 0 := by
  have h := silence_decay_block F0 false (1/2) (1/2) (1/2) 0 0 rfl
    (by norm_num) (by norm_num) (by norm_num) (by norm_num) 4096
  have h0 := h 0
  rw [show (silentInit (1/2 : ℚ) (1/2) (1/2) 0 0).env = #[(1/2 : ℚ), 0, 0]
    from rfl, qget_env3] at h0
  norm_num at h0
  rw [h0]
  norm_num

/-- Claim C8 (amended): feeding silence makes each envelope decay
geometrically: after `k` samples (sample rate 30720, interval exactly
`N = 512`) the envelope equals `(1 - releaseCoeff)^(k/512)` times its
start value.  The sequence is nonincreasing and converges to 0 (for any
positive release coefficient), but a strictly positive envelope never
reaches exactly 0 in exact arithmetic — only float underflow would. -/
theorem c8_silence_geometric_decay (F : Flt) (pk : Bool)
    (a r e0 e1 e2 : ℚ) (hs0 : F.sqrtf 0 = 0) (hr0 : 0 ≤ r) (hr1 : r ≤ 1)
    (he0 : 0 ≤ e0) (he1 : 0 ≤ e1) (he2 : 0 ≤ e2) :
    (∀ (k : ℕ) (b : ℕ), qget (stepBlock F 30720 pk
        (silentInit a r e0 e1 e2) (List.replicate k 0)).env b =
      (1 - r) ^ (k / 512) * qget (silentInit a r e0 e1 e2).env b) ∧
    (r < 1 → 0 < e0 → ∀ m : ℕ, 0 < (1 - r) ^ m * e0) ∧
    (∀ m : ℕ, (1 - r) ^ (m + 1) * e0 ≤ (1 - r) ^ m * e0) ∧
    (0 < r → ∀ ε : ℚ, 0 < ε → ∃ m : ℕ, (1 - r) ^ m * e0 < ε) := by
  refine ⟨fun k =>
    silence_decay_block F pk a r e0 e1 e2 hs0 hr1 he0 he1 he2 k,
    ?_, ?_, ?_⟩
  · intro hrlt he m
    exact mul_pos (pow_pos (by linarith) m) he
  · intro m
    have h1 : (0 : ℚ) ≤ (1 - r) ^ m := pow_nonneg (by linarith) m
    rw [pow_succ]
    nlinarith [mul_nonneg (mul_nonneg h1 he0) hr0]
  · intro hrpos ε hε
    have hlt : 1 - r < 1 := by linarith
    have hnn : (0 : ℚ) ≤ 1 - r := by linarith
    obtain ⟨m, hm⟩ := exists_pow_lt_of_lt_one
      (show (0 : ℚ) < ε / (e0 + 1) from div_pos hε (by linarith)) hlt
    refine ⟨m, ?_⟩
    have h2 : (1 - r) ^ m * e0 ≤ (1 - r) ^ m * (e0 + 1) := by
      nlinarith [pow_nonneg hnn m]
    have h3 : (1 - r) ^ m * (e0 + 1) < ε / (e0 + 1) * (e0 + 1) :=
      mul_lt_mul_of_pos_right hm (by linarith)
    have h4 : ε / (e0 + 1) * (e0 + 1) = ε := div_mul_cancel₀ ε (by linarith)
    linarith

theorem c8_witness :
    F0.sqrtf 0 = 0 ∧ (0 : ℚ) ≤ 1/2 ∧ (1/2 : ℚ) ≤ 1 ∧
    (∀ b, qget (stepBlock F0 30720 false
        (silentInit (1/2) (1/2) (1/2) 0 0)
        (List.replicate 512 0)).env b =
      (1 - 1/2) ^ (512 / 512) *
        qget (silentInit (1/2 : ℚ) (1/2) (1/2) 0 0).env b) := by
  have h := c8_silence_geometric_decay F0 false (1/2) (1/2) (1/2) 0 0 rfl
    (by norm_num) (by norm_num) (by norm_num) (by norm_num) (by norm_num)
  exact ⟨rfl, by norm_num, by norm_num, h.1 512⟩

end Spectre
